import Mathlib

/-!
Verification development for babel-plugin-transform-define (src/index.js).

The plugin's core is embedded shallowly:

* JavaScript values are primitives plus references into an explicit store
  (JsHeap), so shared and cyclic configuration objects are representable.
  A JavaScript object is a list of key/value entries in insertion order
  (JavaScript objects never hold two entries with the same string key;
  well-formedness hypotheses state this where a proof needs it).
* traverse(obj).paths() from the traverse package is modelled by travGo:
  a pre-order walk that emits every node's key path (the root included),
  recursing into an object only when its reference is not already on the
  current ancestor chain (the package's cycle check).  The walk is indexed
  by fuel; heap size plus one is always enough fuel, which is proved, so
  the fuel is an implementation device, not a semantic restriction.
* Array.prototype.sort with the source's one-argument comparator
  (elem) => elem.length is modelled by the classic V8 insertion sort,
  which the engines of this package's era apply only to ranges of at most
  ten elements (longer arrays are quicksorted with a median-of-three
  pivot); with a comparator that is positive on every pair of non-empty
  strings the insertion sort reverses its input, which matches the output
  documented in the source's own doc comment.  Conclusions about the order
  of the sorted output therefore carry a ten-element bound; both
  algorithms merely permute their input, so permutation consequences are
  engine-independent and stated at every length.
* lodash.get is modelled for string paths made of plain keys: a path that
  is itself a property of the object is looked up directly (lodash's isKey
  short-circuit), otherwise the path is split on dots and walked.  A call
  with an undefined path - which the source performs whenever no sorted
  path survives the comparator filter, since shift() on an empty array
  returns undefined - reads the property literally named "undefined":
  lodash 4's isKey accepts undefined (value == null) and toKey
  stringifies it.  Bracket syntax is outside the modelled domain.
* babel's capability surface (matchesPattern, valueToNode, replaceWith,
  isBinaryExpression, evaluate) is modelled on a small expression type;
  evaluation is confident exactly when the modelled evaluator returns a
  value.  Loading a configuration module from disk (fs.accessSync plus
  require) is modelled by an oracle from paths to either an underlying
  error or a loaded value.
-/

/-- A JavaScript primitive value as it can appear in a configuration map.
Numbers are modelled as integers; the claims only involve integral values. -/
inductive JsPrim where
  | str (s : String)
  | num (n : Int)
  | bool (b : Bool)
  | null
deriving DecidableEq, Repr

/-- A JavaScript value: a primitive or a reference into the heap. -/
inductive JsVal where
  | prim (p : JsPrim)
  | ref (r : Nat)
deriving DecidableEq, Repr

/-- A JavaScript object: entries in insertion order. -/
abbrev JsObj := List (String × JsVal)

/-- The store of allocated objects; JsVal.ref indexes into it. -/
abbrev JsHeap := List JsObj

/-- JavaScript truthiness of a modelled value (0, false, "" and null are
falsy; every object is truthy). -/
def truthy : JsVal → Bool
  | .prim (.str s) => s.length != 0
  | .prim (.num n) => n != 0
  | .prim (.bool b) => b
  | .prim .null => false
  | .ref _ => true

/-- The entries of a value viewed as an object: a reference yields the
stored entries, a primitive yields none (the configuration map is
documented to be an object, so primitives only arise off the main path). -/
def objEntries (h : JsHeap) : JsVal → JsObj
  | .ref r => (h[r]?).getD []
  | .prim _ => []

/-- First entry with the given key, as JavaScript property lookup does
(objects never repeat a key, so first-match is the lookup). -/
def lookupKey (es : JsObj) (k : String) : Option JsVal :=
  (es.find? (fun kv => kv.1 == k)).map (fun kv => kv.2)

/-- Property read v[k]. -/
def getKey (h : JsHeap) (v : JsVal) (k : String) : Option JsVal :=
  lookupKey (objEntries h v) k

/-- Walk a chain of keys from a value: the semantics of a dotted path once
split into segments. -/
def walkVal (h : JsHeap) : JsVal → List String → Option JsVal
  | v, [] => some v
  | v, k :: p =>
    match getKey h v k with
    | some v' => walkVal h v' p
    | none => none

/-- The object references traversed when walking a chain of keys: the
reference entered at each step.  Used to state cycle-safety. -/
def refChain (h : JsHeap) : JsVal → List String → Option (List Nat)
  | _, [] => some []
  | .prim _, _ :: _ => none
  | .ref r, k :: p =>
    match getKey h (.ref r) k with
    | some v' => (refChain h v' p).map (fun c => r :: c)
    | none => none

/-- Split a string at every dot, as String.prototype.split(".") and
lodash's stringToPath do for plain dotted paths. -/
def splitDotAux : List Char → List Char → List String
  | [], acc => [String.mk acc.reverse]
  | c :: cs, acc =>
    if c = '.' then String.mk acc.reverse :: splitDotAux cs []
    else splitDotAux cs (c :: acc)

/-- Dotted-path split of a string. -/
def splitOnDot (s : String) : List String := splitDotAux s.data []

/-- Whether a string contains a dot. -/
def hasDot (s : String) : Bool := s.data.contains '.'

/-- lodash.get(obj, path) for a string path of plain keys: a path that is
itself a property of the object is read directly (lodash's isKey check
admits an existing key, and a single undotted segment reads the same
property), otherwise the path is split on dots and walked. -/
def lodashGet (h : JsHeap) (obj : JsVal) (s : String) : Option JsVal :=
  match getKey h obj s with
  | some v => some v
  | none => if hasDot s then walkVal h obj (splitOnDot s) else none

/-- Array.prototype.join(".") on the key path collected by traverse. -/
def dotJoin : List String → String
  | [] => ""
  | x :: xs => xs.foldl (fun acc s => acc ++ "." ++ s) x

/-- One step of the classic V8 insertion sort: scanning the sorted prefix
from the right, every element the comparator ranks above the new element
is shifted one slot right, and the new element lands in the gap. -/
def v8Insert (cmp : String → String → Int) (sorted : List String) (x : String) :
    List String :=
  let rev := sorted.reverse
  let shifted := rev.takeWhile (fun t => 0 < cmp t x)
  let kept := rev.drop shifted.length
  kept.reverse ++ x :: shifted.reverse

/-- The V8 insertion sort.  In the engines of this package's era
Array.prototype.sort insertion-sorts only ranges of at most ten elements
and quicksorts longer arrays, so this function models the engine's
ordering faithfully only for lists of at most ten elements (theorems
about the order of the output carry that bound; it reproduces the output
documented in the source's doc comment).  The quicksort also merely
permutes its range, so permutation consequences of this model are
engine-independent and hold at every length. -/
def v8InsertionSort (cmp : String → String → Int) (l : List String) : List String :=
  l.foldl (v8Insert cmp) []

/-- The source's comparator (elem) => elem.length: it ignores its second
argument and returns the first argument's length. -/
def jsSortComparator : String → String → Int :=
  fun elem _ => (elem.length : Int)

/-- Pre-order walk of the entries of one object: each entry's subtree in
turn, via the supplied walker for values.  Models the child loop of the
traverse package. -/
def travFields (go : List Nat → List String → JsVal → Option (List (List String)))
    (anc : List Nat) (pr : List String) : JsObj → Option (List (List String))
  | [] => some []
  | kv :: rest =>
    match go anc (kv.1 :: pr) kv.2 with
    | none => none
    | some l1 =>
      match travFields go anc pr rest with
      | none => none
      | some l2 => some (l1 ++ l2)

/-- traverse(obj).paths(): pre-order, every node's path is emitted (the
current path is carried reversed); an object is entered only when its
reference is not on the ancestor chain anc, which is the package's cycle
check.  Indexed by fuel; exhausted fuel is reported as none. -/
def travGo (h : JsHeap) : Nat → List Nat → List String → JsVal →
    Option (List (List String))
  | 0 => fun _ _ _ => none
  | fuel + 1 => fun anc pr v =>
    match v with
    | .prim _ => some [pr.reverse]
    | .ref r =>
      if r ∈ anc then some [pr.reverse]
      else
        match h[r]? with
        | none => some [pr.reverse]
        | some entries =>
          (travFields (travGo h fuel) (r :: anc) pr entries).map
            (fun l => pr.reverse :: l)

/-- The full path enumeration with sufficient fuel (heap size plus one,
proved sufficient below). -/
def traversePathsOpt (h : JsHeap) (obj : JsVal) : Option (List (List String)) :=
  travGo h (h.length + 1) [] [] obj

/-- getSortedObjectPaths from src/index.js: falsy input yields the empty
array; otherwise every path of traverse(obj).paths() except the empty root
path is joined with dots and the result is passed through the sort with
the one-argument length comparator. -/
def getSortedObjectPaths (h : JsHeap) (obj : JsVal) : List String :=
  if truthy obj then
    v8InsertionSort jsSortComparator
      ((((traversePathsOpt h obj).getD []).filter
        (fun arr => arr.length != 0)).map dotJoin)
  else []

/-- The expression x || null used on the lookup result: the value itself
when truthy, otherwise null (an undefined lookup is also falsy). -/
def jsOrNull : Option JsVal → JsVal
  | some v => if truthy v then v else .prim .null
  | none => .prim .null

/-- A fragment of the babel AST, as far as the rewriter observes it:
literals, object literals produced by valueToNode from an object value,
binary expressions, and opaque other nodes. -/
inductive JsExpr where
  | lit (p : JsPrim)
  | objNode (r : Nat)
  | bin (op : String) (l r : JsExpr)
  | other (tag : Nat)
deriving DecidableEq, Repr

/-- What replaceAndEvaluateNode observes of the parent node: either a
BinaryExpression (operator, which side the visited node is on, and the
other operand) or anything else. -/
inductive ParentCtx where
  | binParent (op : String) (nodeOnLeft : Bool) (sibling : JsExpr)
  | nonBinary
deriving DecidableEq, Repr

/-- A babel node path: the node of interest together with what the
rewriter needs of its parent link. -/
structure NodePath (α : Type) where
  node : α
  parent : ParentCtx

/-- t.valueToNode: a primitive becomes the corresponding literal node, an
object value becomes an object literal node. -/
def valueToNode : JsVal → JsExpr
  | .prim p => .lit p
  | .ref r => .objNode r

/-- One binary operator applied to two primitive values, when the result
is statically determined: strict (in)equality on primitives, arithmetic
and ordering on numbers, concatenation on strings.  Other operators are
not resolved. -/
def evalBinOp (op : String) (a b : JsPrim) : Option JsPrim :=
  if op = "===" then some (.bool (decide (a = b)))
  else if op = "!==" then some (.bool (!(decide (a = b))))
  else if op = "+" then
    match a, b with
    | .num x, .num y => some (.num (x + y))
    | .str x, .str y => some (.str (x ++ y))
    | _, _ => none
  else if op = "-" then
    match a, b with
    | .num x, .num y => some (.num (x - y))
    | _, _ => none
  else if op = "*" then
    match a, b with
    | .num x, .num y => some (.num (x * y))
    | _, _ => none
  else if op = "<" then
    match a, b with
    | .num x, .num y => some (.bool (decide (x < y)))
    | _, _ => none
  else if op = "<=" then
    match a, b with
    | .num x, .num y => some (.bool (decide (x ≤ y)))
    | _, _ => none
  else if op = ">" then
    match a, b with
    | .num x, .num y => some (.bool (decide (y < x)))
    | _, _ => none
  else if op = ">=" then
    match a, b with
    | .num x, .num y => some (.bool (decide (y ≤ x)))
    | _, _ => none
  else none

/-- path.evaluate() restricted to what it reports confidently: some value
exactly when the expression is statically resolvable by the modelled
evaluator, none when evaluation is not confident. -/
def evaluateJsExpr : JsExpr → Option JsPrim
  | .lit p => some p
  | .objNode _ => none
  | .other _ => none
  | .bin op l r =>
    match evaluateJsExpr l, evaluateJsExpr r with
    | some a, some b => evalBinOp op a b
    | _, _ => none

/-- The parent BinaryExpression as it stands after the visited child has
been replaced by newNode. -/
def mkParentExpr (op : String) (nodeOnLeft : Bool) (sibling newNode : JsExpr) :
    JsExpr :=
  if nodeOnLeft then .bin op newNode sibling else .bin op sibling newNode

/-- Outcome of one node visit: nothing changed, the node replaced with a
literal, or additionally the parent replaced by its evaluated value. -/
inductive VisitResult where
  | unchanged
  | substituted (newNode : JsExpr)
  | foldedParent (newParent : JsExpr)
deriving DecidableEq, Repr

/-- replaceAndEvaluateNode from src/index.js: replace the node, then, when
the parent is a BinaryExpression whose evaluation is confident, replace
the parent with the evaluated value. -/
def replaceAndEvaluateNode (replaceFn : JsVal → JsExpr) (parent : ParentCtx)
    (replacement : JsVal) : VisitResult :=
  let newNode := replaceFn replacement
  match parent with
  | .binParent op nodeOnLeft sibling =>
    match evaluateJsExpr (mkParentExpr op nodeOnLeft sibling newNode) with
    | some value => .foldedParent (replaceFn (.prim value))
    | none => .substituted newNode
  | .nonBinary => .substituted newNode

/-- getFirstReplacementValueForNode from src/index.js: the first sorted
path accepted by the comparator, looked up with lodash.get, with || null
applied to the result.  When the filter produced nothing, shift returns
undefined and the source still calls get(obj, undefined): lodash 4's
isKey accepts undefined (value == null) and toKey stringifies it, so the
call reads the property literally named "undefined" on the configuration
object - null only results when that property is absent or falsy. -/
def getFirstReplacementValueForNode {α : Type} (h : JsHeap) (obj : JsVal)
    (comparator : NodePath α → String → Bool) (nodePath : NodePath α) : JsVal :=
  let replacementKey :=
    ((getSortedObjectPaths h obj).filter (fun value => comparator nodePath value)).head?
  match replacementKey with
  | some k => jsOrNull (lodashGet h obj k)
  | none => jsOrNull (getKey h obj "undefined")

/-- processNode from src/index.js: resolve a replacement and, when it is
truthy, substitute (and possibly fold); otherwise leave the node alone. -/
def processNode {α : Type} (h : JsHeap) (replacements : JsVal)
    (nodePath : NodePath α) (replaceFn : JsVal → JsExpr)
    (comparator : NodePath α → String → Bool) : VisitResult :=
  let replacement := getFirstReplacementValueForNode h replacements comparator nodePath
  if truthy replacement then replaceAndEvaluateNode replaceFn nodePath.parent replacement
  else .unchanged

/-- nodePath.matchesPattern(value): the node's static member chain equals
the pattern split at dots.  Only static dotted chains are modelled;
computed chains never match. -/
def matchesPattern (chain : List String) (pattern : String) : Bool :=
  splitOnDot pattern == chain

/-- The member-expression comparator from src/index.js. -/
def memberExpressionComparator (nodePath : NodePath (List String)) (value : String) :
    Bool :=
  matchesPattern nodePath.node value

/-- The identifier comparator from src/index.js: nodePath.node.name === value. -/
def identifierComparator (nodePath : NodePath String) (value : String) : Bool :=
  nodePath.node == value

/-- A typeof UnaryExpression as the visitor observes it: the operator and
the argument's name field, which is absent when the argument is not a bare
identifier (member expressions and calls have no name property). -/
structure UnaryNode where
  operator : String
  argumentName : Option String

/-- The unary-expression comparator from src/index.js:
nodePath.node.argument.name === value, where an absent name (undefined)
compares unequal to every string. -/
def unaryExpressionComparator (nodePath : NodePath UnaryNode) (value : String) :
    Bool :=
  match nodePath.node.argumentName with
  | some n => n == value
  | none => false

/-- The plugin's options: a configuration object used directly, or a path
to a module on disk. -/
inductive ConfigOptions where
  | obj (v : JsVal)
  | path (s : String)

/-- The thrown configuration failure: which path failed and the underlying
cause it wraps (the source logs the invalid path and throws
new Error(err)). -/
structure LoadError where
  nodePath : String
  cause : String
deriving DecidableEq, Repr

/-- getReplacements from src/index.js.  An object option is returned as
is.  A path option is resolved against the host file system, modelled by
the oracle fs: path.join(process.cwd(), ...), fs.accessSync and require
either produce a value or fail with an underlying error, which the source
wraps and throws. -/
def getReplacements (fs : String → Sum String JsVal) :
    ConfigOptions → Except LoadError JsVal
  | .obj v => .ok v
  | .path s =>
    match fs s with
    | .inr v => .ok v
    | .inl cause => .error ⟨s, cause⟩

/-- key.substring(0, n) (clamped like the JavaScript original). -/
def jsSubstringUpTo (s : String) (n : Nat) : String := String.mk (s.data.take n)

/-- key.substring(n) (clamped like the JavaScript original). -/
def jsSubstringFrom (s : String) (n : Nat) : String := String.mk (s.data.drop n)

/-- The derived typeof namespace built in the UnaryExpression visitor:
every key whose first seven characters are "typeof " contributes its
remainder, mapped to the original configured value, in key order. -/
def buildTypeofValues (entries : JsObj) : JsObj :=
  entries.filterMap (fun kv =>
    if jsSubstringUpTo kv.1 7 == "typeof " then some (jsSubstringFrom kv.1 7, kv.2)
    else none)

/-- The MemberExpression visitor from src/index.js. -/
def MemberExpressionVisit (h : JsHeap) (fs : String → Sum String JsVal)
    (opts : ConfigOptions) (nodePath : NodePath (List String)) :
    Except LoadError VisitResult :=
  (getReplacements fs opts).map
    (fun repl => processNode h repl nodePath valueToNode memberExpressionComparator)

/-- The Identifier visitor from src/index.js. -/
def IdentifierVisit (h : JsHeap) (fs : String → Sum String JsVal)
    (opts : ConfigOptions) (nodePath : NodePath String) :
    Except LoadError VisitResult :=
  (getReplacements fs opts).map
    (fun repl => processNode h repl nodePath valueToNode identifierComparator)

/-- The UnaryExpression visitor from src/index.js: a no-op unless the
operator is exactly "typeof"; otherwise the derived typeof namespace is
built from the configuration (a fresh object, modelled as a fresh
allocation at the end of the heap) and processed with the
unary-expression comparator. -/
def UnaryExpressionVisit (h : JsHeap) (fs : String → Sum String JsVal)
    (opts : ConfigOptions) (nodePath : NodePath UnaryNode) :
    Except LoadError VisitResult :=
  if nodePath.node.operator != "typeof" then .ok .unchanged
  else
    (getReplacements fs opts).map
      (fun repl =>
        processNode (h ++ [buildTypeofValues (objEntries h repl)])
          (JsVal.ref h.length) nodePath valueToNode unaryExpressionComparator)

/-- One visited node of an interesting kind, as the host traversal
delivers it. -/
inductive VisitEvent where
  | member (np : NodePath (List String))
  | ident (np : NodePath String)
  | unary (np : NodePath UnaryNode)

/-- Dispatch of one visit. -/
def visitEvent (h : JsHeap) (fs : String → Sum String JsVal)
    (opts : ConfigOptions) : VisitEvent → Except LoadError VisitResult
  | .member np => MemberExpressionVisit h fs opts np
  | .ident np => IdentifierVisit h fs opts np
  | .unary np => UnaryExpressionVisit h fs opts np

/-- Whether a visit reads the configuration at all: every visit does,
except a UnaryExpression visit that returns before loading because the
operator is not typeof. -/
def consultsConfig : VisitEvent → Prop
  | .unary np => np.node.operator = "typeof"
  | _ => True

/-- The whole pass: the host framework drives one visit after another; a
thrown error aborts the traversal with no partial output. -/
def runPass (h : JsHeap) (fs : String → Sum String JsVal) (opts : ConfigOptions) :
    List VisitEvent → Except LoadError (List VisitResult)
  | [] => .ok []
  | ev :: rest =>
    match visitEvent h fs opts ev with
    | .error e => .error e
    | .ok r =>
      match runPass h fs opts rest with
      | .error e => .error e
      | .ok rs => .ok (r :: rs)

/-! State-threaded variants of enumeration and resolution.  Every
JavaScript operation the source performs on the configuration store is a
property read; the variants below thread the store through each primitive
read so that absence of mutation is a provable statement rather than a
modelling assumption. -/

/-- A property-table read, threading the store. -/
def readObjST (h : JsHeap) (r : Nat) : Option JsObj × JsHeap := (h[r]?, h)

/-- State-threaded child loop of the traversal. -/
def travFieldsST
    (go : List Nat → List String → JsVal → JsHeap → Option (List (List String)) × JsHeap)
    (anc : List Nat) (pr : List String) : JsObj → JsHeap →
    Option (List (List String)) × JsHeap
  | [], h => (some [], h)
  | kv :: rest, h =>
    match go anc (kv.1 :: pr) kv.2 h with
    | (none, h1) => (none, h1)
    | (some l1, h1) =>
      match travFieldsST go anc pr rest h1 with
      | (none, h2) => (none, h2)
      | (some l2, h2) => (some (l1 ++ l2), h2)

/-- State-threaded traversal. -/
def travGoST : Nat → List Nat → List String → JsVal → JsHeap →
    Option (List (List String)) × JsHeap
  | 0 => fun _ _ _ h => (none, h)
  | fuel + 1 => fun anc pr v h =>
    match v with
    | .prim _ => (some [pr.reverse], h)
    | .ref r =>
      if r ∈ anc then (some [pr.reverse], h)
      else
        match readObjST h r with
        | (none, h1) => (some [pr.reverse], h1)
        | (some entries, h1) =>
          match travFieldsST (travGoST fuel) (r :: anc) pr entries h1 with
          | (o, h2) => (o.map (fun l => pr.reverse :: l), h2)

/-- State-threaded object-entry view. -/
def objEntriesST (v : JsVal) (h : JsHeap) : JsObj × JsHeap :=
  match v with
  | .ref r =>
    match readObjST h r with
    | (o, h1) => (o.getD [], h1)
  | .prim _ => ([], h)

/-- State-threaded property read. -/
def getKeyST (v : JsVal) (k : String) (h : JsHeap) : Option JsVal × JsHeap :=
  match objEntriesST v h with
  | (es, h1) => (lookupKey es k, h1)

/-- State-threaded path walk. -/
def walkValST : JsVal → List String → JsHeap → Option JsVal × JsHeap
  | v, [], h => (some v, h)
  | v, k :: p, h =>
    match getKeyST v k h with
    | (some v', h1) => walkValST v' p h1
    | (none, h1) => (none, h1)

/-- State-threaded lodash.get. -/
def lodashGetST (obj : JsVal) (s : String) (h : JsHeap) : Option JsVal × JsHeap :=
  match getKeyST obj s h with
  | (some v, h1) => (some v, h1)
  | (none, h1) => if hasDot s then walkValST obj (splitOnDot s) h1 else (none, h1)

/-- State-threaded getSortedObjectPaths. -/
def getSortedObjectPathsST (h : JsHeap) (obj : JsVal) : List String × JsHeap :=
  if truthy obj then
    match travGoST (h.length + 1) [] [] obj h with
    | (o, h1) =>
      (v8InsertionSort jsSortComparator
        (((o.getD []).filter (fun arr => arr.length != 0)).map dotJoin), h1)
  else ([], h)

/-- State-threaded getFirstReplacementValueForNode. -/
def getFirstReplacementValueForNodeST {α : Type} (h : JsHeap) (obj : JsVal)
    (comparator : NodePath α → String → Bool) (nodePath : NodePath α) :
    JsVal × JsHeap :=
  match getSortedObjectPathsST h obj with
  | (sorted, h1) =>
    match (sorted.filter (fun value => comparator nodePath value)).head? with
    | some k =>
      match lodashGetST obj k h1 with
      | (v, h2) => (jsOrNull v, h2)
    | none =>
      match getKeyST obj "undefined" h1 with
      | (v, h2) => (jsOrNull v, h2)

/-! Well-formedness predicates on stores, and the concrete stores used by
witnesses and counterexamples. -/

/-- Every stored object has pairwise distinct keys, as JavaScript objects
do by construction. -/
abbrev KeysNodupHeap (h : JsHeap) : Prop := ∀ es ∈ h, (es.map Prod.fst).Nodup

/-- Every key is a non-empty string. -/
abbrev KeysNonemptyHeap (h : JsHeap) : Prop := ∀ es ∈ h, ∀ kv ∈ es, kv.1.length ≠ 0

/-- No key contains a dot. -/
abbrev KeysDotFreeHeap (h : JsHeap) : Prop := ∀ es ∈ h, ∀ kv ∈ es, ('.' : Char) ∉ kv.1.data

/-- One stored value points forward from object r: a reference must be
strictly larger, a primitive always qualifies. -/
def forwardEntry (r : Nat) (v : JsVal) : Bool :=
  match v with
  | .ref r' => r < r'
  | .prim _ => true

/-- Acyclic store in topological layout: every stored reference points to
a strictly larger index.  Any configuration object without cycles can be
laid out this way, so quantifying over such stores covers every acyclic
configuration up to renaming of references. -/
abbrev ForwardHeap (h : JsHeap) : Prop :=
  ∀ r ∈ List.range h.length, ∀ kv ∈ (h[r]?).getD [], forwardEntry r kv.2 = true

/-- The references stored directly inside object r. -/
def stepTargets (h : JsHeap) (r : Nat) : List Nat :=
  ((h[r]?).getD []).filterMap (fun kv =>
    match kv.2 with
    | .ref r' => some r'
    | .prim _ => none)

/-- Bounded reachability between references along stored fields. -/
def reachB (h : JsHeap) : Nat → Nat → Nat → Bool
  | 0, _, _ => false
  | fuel + 1, r, t => (stepTargets h r).any (fun m => m == t || reachB h fuel m t)

/-- The store holds a value reachable from itself, directly or
transitively. -/
def hasSelfRef (h : JsHeap) : Bool :=
  (List.range h.length).any (fun r => reachB h h.length r r)

/-- The binary comparison operators of the host language, as the spec's
phrase "binary comparison expression" enumerates them.  Modelled from the
spec: the source tests isBinaryExpression, which accepts every binary
operator. -/
def isComparisonOp (op : String) : Bool :=
  op == "==" || op == "!=" || op == "===" || op == "!==" ||
  op == "<" || op == "<=" || op == ">" || op == ">="

/-- Store for the C2 witness: a configuration with a falsy value, { a: 0 }. -/
def c2Heap : JsHeap := [[("a", .prim (.num 0))]]

/-- Store for the C2 counterexample: { a: 0, undefined: "x" } - a falsy
configured value next to a truthy property literally named "undefined". -/
def c2HeapX : JsHeap := [[("a", .prim (.num 0)), ("undefined", .prim (.str "x"))]]

/-- Store for the C10 counterexample: { "typeof undefined": "x" }, whose
derived typeof namespace is { undefined: "x" }. -/
def c10HeapX : JsHeap := [[("typeof undefined", .prim (.str "x"))]]

/-- Store for the C4 counterexample and witness: { a: 0 } and { a: "x" }. -/
def c4Heap : JsHeap := [[("a", .prim (.num 0))]]

/-- Store for the C4 witness: { a: "x" }. -/
def c4HeapW : JsHeap := [[("a", .prim (.str "x"))]]

/-- Store for the C5 witness: { "typeof window": "undefined" }. -/
def c5Heap : JsHeap := [[("typeof window", .prim (.str "undefined"))]]

/-- Ancestor-chain invariant making the traversal fuel sufficient: the
ancestors are distinct in-range references and the fuel still covers the
rest of the store. -/
def AncOK (h : JsHeap) (fuel : Nat) (anc : List Nat) : Prop :=
  anc.Nodup ∧ (∀ a ∈ anc, a < h.length) ∧ h.length + 1 ≤ fuel + anc.length

/-- Store for the C1 counterexample: { "a.b": 1, a: { b: 2 } }. -/
def c1Heap : JsHeap := [[("a.b", .prim (.num 1)), ("a", .ref 1)], [("b", .prim (.num 2))]]

/-- Store for the C1 witness: { a: { b: 2 } }. -/
def c1HeapW : JsHeap := [[("a", .ref 1)], [("b", .prim (.num 2))]]

/-- Store for the C6 witness: an object whose self field is itself. -/
def c6Heap : JsHeap := [[("self", .ref 0)]]

/-- Store for the C7 counterexample: { "a.b": 1, a: { b: 2 } }. -/
def c7Heap : JsHeap := [[("a.b", .prim (.num 1)), ("a", .ref 1)], [("b", .prim (.num 2))]]

/-- Store for the C7 witness: { a: { b: 2 } }. -/
def c7HeapW : JsHeap := [[("a", .ref 1)], [("b", .prim (.num 2))]]

/-! Helper lemmas shared by several claims. -/

/-- Taking the head of a filtered list is finding the first element the
predicate accepts: shift-after-filter is first-match selection. -/
theorem head_filter_eq_find {α : Type} (p : α → Bool) (l : List α) :
    (l.filter p).head? = l.find? p := by
  induction l with
  | nil => rfl
  | cons a l ih =>
    cases h : p a with
    | true => simp [List.filter_cons, List.find?, h]
    | false => simp [List.filter_cons, List.find?, h, ih]

/-- Reading the freshly appended object at index h.length yields exactly
that object: the fresh allocation of the derived typeof namespace. -/
theorem getElem?_append_singleton (h : JsHeap) (x : JsObj) :
    (h ++ [x])[h.length]? = some x := by
  induction h with
  | nil => rfl
  | cons a t ih => simp

/-- C2 counterexample: at the configuration { a: 0, undefined: "x" } the
falsy-valued visit (identifier a selects path "a", whose value 0 is
falsy) leaves the node unmodified, but a visit where no path matches at
all (identifier zz) reads get(obj, undefined) - the property literally
named "undefined", here the truthy "x" - and substitutes the node, so the
falsy case does not behave "exactly as when no path matches at all". -/
theorem c2_counterexample :
    getFirstReplacementValueForNode c2HeapX (JsVal.ref 0) identifierComparator
      ⟨"a", ParentCtx.nonBinary⟩ = JsVal.prim JsPrim.null ∧
    processNode c2HeapX (JsVal.ref 0) ⟨"a", ParentCtx.nonBinary⟩ valueToNode
      identifierComparator = VisitResult.unchanged ∧
    ((getSortedObjectPaths c2HeapX (JsVal.ref 0)).filter
      (fun value => identifierComparator ⟨"zz", ParentCtx.nonBinary⟩ value)).head? =
      none ∧
    processNode c2HeapX (JsVal.ref 0) ⟨"zz", ParentCtx.nonBinary⟩ valueToNode
      identifierComparator =
      VisitResult.substituted (JsExpr.lit (JsPrim.str "x")) := by decide

/-- C2 (amended): when the configured value reached by the selected path
is falsy (0, false, the empty string, or null), the resolver reports null
and the visitor leaves the node unmodified; this coincides with the
no-match behaviour whenever the configuration carries no truthy property
literally named "undefined" - with one, a no-match visit reads it via
get(obj, undefined) and substitutes the node instead. -/
theorem c2_falsy_value_is_no_replacement {α : Type} (h : JsHeap) (obj : JsVal)
    (cmp : NodePath α → String → Bool) (np : NodePath α) (rf : JsVal → JsExpr)
    (p : String) (v : JsVal)
    (hsel : ((getSortedObjectPaths h obj).filter
      (fun value => cmp np value)).head? = some p)
    (hget : lodashGet h obj p = some v) (hfalsy : truthy v = false) :
    getFirstReplacementValueForNode h obj cmp np = JsVal.prim JsPrim.null ∧
    processNode h obj np rf cmp = VisitResult.unchanged ∧
    (truthy (jsOrNull (getKey h obj "undefined")) = false →
      ∀ (cmp' : NodePath α → String → Bool) (np' : NodePath α),
        ((getSortedObjectPaths h obj).filter
          (fun value => cmp' np' value)).head? = none →
        processNode h obj np' rf cmp' = VisitResult.unchanged) := by
  have h1 : getFirstReplacementValueForNode h obj cmp np = JsVal.prim JsPrim.null := by
    simp only [getFirstReplacementValueForNode, hsel, hget, jsOrNull, hfalsy]
    simp
  refine ⟨h1, ?_, ?_⟩
  · simp only [processNode, h1, truthy]
    simp
  · intro hund cmp' np' hnone
    have h2 : truthy (getFirstReplacementValueForNode h obj cmp' np') = false := by
      simp only [getFirstReplacementValueForNode, hnone]
      exact hund
    simp only [processNode, h2]
    simp

/-- Witness for C2 at the configuration { a: 0 } and a bare identifier a. -/
theorem c2_witness :
    truthy (JsVal.prim (JsPrim.num 0)) = false ∧
    getFirstReplacementValueForNode c2Heap (JsVal.ref 0) identifierComparator
      ⟨"a", ParentCtx.nonBinary⟩ = JsVal.prim JsPrim.null ∧
    processNode c2Heap (JsVal.ref 0) ⟨"a", ParentCtx.nonBinary⟩ valueToNode
      identifierComparator = VisitResult.unchanged ∧
    processNode c2Heap (JsVal.ref 0) ⟨"zz", ParentCtx.nonBinary⟩ valueToNode
      identifierComparator = VisitResult.unchanged :=
  ⟨by decide,
    (c2_falsy_value_is_no_replacement c2Heap (JsVal.ref 0) identifierComparator
      ⟨"a", ParentCtx.nonBinary⟩ valueToNode "a" (JsVal.prim (JsPrim.num 0))
      (by decide) (by decide) (by decide)).1,
    (c2_falsy_value_is_no_replacement c2Heap (JsVal.ref 0) identifierComparator
      ⟨"a", ParentCtx.nonBinary⟩ valueToNode "a" (JsVal.prim (JsPrim.num 0))
      (by decide) (by decide) (by decide)).2.1,
    (c2_falsy_value_is_no_replacement c2Heap (JsVal.ref 0) identifierComparator
      ⟨"a", ParentCtx.nonBinary⟩ valueToNode "a" (JsVal.prim (JsPrim.num 0))
      (by decide) (by decide) (by decide)).2.2 (by decide) identifierComparator
      ⟨"zz", ParentCtx.nonBinary⟩ (by decide)⟩

/-- C3 counterexample: with the parent a binary arithmetic expression
(operator +, not a comparison) the fold step still fires and replaces the
parent with the evaluated literal, so the fold is not restricted to
binary comparison expressions. -/
theorem c3_counterexample :
    replaceAndEvaluateNode valueToNode
      (ParentCtx.binParent "+" true (JsExpr.lit (JsPrim.num 1)))
      (JsVal.prim (JsPrim.num 2)) =
      VisitResult.foldedParent (JsExpr.lit (JsPrim.num 3)) ∧
    isComparisonOp "+" = false := by decide

/-- C3 (amended): after substitution the fold step fires iff the immediate
parent is a binary expression - of any operator, not only comparisons -
whose static evaluation is confident; then the parent is replaced with the
evaluated literal, and in every other case (parent not binary, or
evaluation not confident) the substituted child remains in place and no
further folding is attempted. -/
theorem c3_fold_iff_binary_parent_confident (rf : JsVal → JsExpr)
    (parent : ParentCtx) (repl : JsVal) :
    ((∃ e, replaceAndEvaluateNode rf parent repl = VisitResult.foldedParent e) ↔
      ∃ op onLeft sibling, parent = ParentCtx.binParent op onLeft sibling ∧
        (evaluateJsExpr (mkParentExpr op onLeft sibling (rf repl))).isSome = true) ∧
    (∀ op onLeft sibling w, parent = ParentCtx.binParent op onLeft sibling →
      evaluateJsExpr (mkParentExpr op onLeft sibling (rf repl)) = some w →
      replaceAndEvaluateNode rf parent repl =
        VisitResult.foldedParent (rf (JsVal.prim w))) ∧
    (parent = ParentCtx.nonBinary →
      replaceAndEvaluateNode rf parent repl = VisitResult.substituted (rf repl)) ∧
    (∀ op onLeft sibling, parent = ParentCtx.binParent op onLeft sibling →
      evaluateJsExpr (mkParentExpr op onLeft sibling (rf repl)) = none →
      replaceAndEvaluateNode rf parent repl = VisitResult.substituted (rf repl)) := by
  cases parent with
  | nonBinary =>
    refine ⟨⟨?_, ?_⟩, ?_, ?_, ?_⟩
    · rintro ⟨e, he⟩
      simp [replaceAndEvaluateNode] at he
    · rintro ⟨op, onLeft, sibling, hps, _⟩
      exact ParentCtx.noConfusion hps
    · intro op onLeft sibling w hps _
      exact ParentCtx.noConfusion hps
    · intro _
      simp [replaceAndEvaluateNode]
    · intro op onLeft sibling hps _
      exact ParentCtx.noConfusion hps
  | binParent op0 onLeft0 sibling0 =>
    cases hev : evaluateJsExpr (mkParentExpr op0 onLeft0 sibling0 (rf repl)) with
    | none =>
      have hrew : replaceAndEvaluateNode rf
          (ParentCtx.binParent op0 onLeft0 sibling0) repl =
          VisitResult.substituted (rf repl) := by
        simp [replaceAndEvaluateNode, hev]
      refine ⟨⟨?_, ?_⟩, ?_, ?_, ?_⟩
      · rintro ⟨e, he⟩
        rw [hrew] at he
        exact VisitResult.noConfusion he
      · rintro ⟨op, onLeft, sibling, hps, hs⟩
        rw [ParentCtx.binParent.injEq] at hps
        obtain ⟨h1, h2, h3⟩ := hps
        subst h1; subst h2; subst h3
        rw [hev] at hs
        simp at hs
      · intro op onLeft sibling w hps hsw
        rw [ParentCtx.binParent.injEq] at hps
        obtain ⟨h1, h2, h3⟩ := hps
        subst h1; subst h2; subst h3
        rw [hev] at hsw
        exact Option.noConfusion hsw
      · intro hps
        exact ParentCtx.noConfusion hps
      · intro op onLeft sibling hps _
        rw [ParentCtx.binParent.injEq] at hps
        obtain ⟨h1, h2, h3⟩ := hps
        subst h1; subst h2; subst h3
        exact hrew
    | some w0 =>
      have hrew : replaceAndEvaluateNode rf
          (ParentCtx.binParent op0 onLeft0 sibling0) repl =
          VisitResult.foldedParent (rf (JsVal.prim w0)) := by
        simp [replaceAndEvaluateNode, hev]
      refine ⟨⟨?_, ?_⟩, ?_, ?_, ?_⟩
      · intro _
        exact ⟨op0, onLeft0, sibling0, rfl, by rw [hev]; rfl⟩
      · intro _
        exact ⟨rf (JsVal.prim w0), hrew⟩
      · intro op onLeft sibling w hps hsw
        rw [ParentCtx.binParent.injEq] at hps
        obtain ⟨h1, h2, h3⟩ := hps
        subst h1; subst h2; subst h3
        rw [hev] at hsw
        rw [Option.some.injEq] at hsw
        subst hsw
        exact hrew
      · intro hps
        exact ParentCtx.noConfusion hps
      · intro op onLeft sibling hps hnone
        rw [ParentCtx.binParent.injEq] at hps
        obtain ⟨h1, h2, h3⟩ := hps
        subst h1; subst h2; subst h3
        rw [hev] at hnone
        exact Option.noConfusion hnone

/-- Witness for C3 at the folding of "production" === "production". -/
theorem c3_witness :
    replaceAndEvaluateNode valueToNode
      (ParentCtx.binParent "===" true (JsExpr.lit (JsPrim.str "production")))
      (JsVal.prim (JsPrim.str "production")) =
      VisitResult.foldedParent (valueToNode (JsVal.prim (JsPrim.bool true))) :=
  (c3_fold_iff_binary_parent_confident valueToNode
      (ParentCtx.binParent "===" true (JsExpr.lit (JsPrim.str "production")))
      (JsVal.prim (JsPrim.str "production"))).2.1
    "===" true (JsExpr.lit (JsPrim.str "production")) (JsPrim.bool true) rfl (by decide)

/-- C4 counterexample: at the configuration { a: 0 } and identifier a the
first matching path is "a" and its dotted-path lookup is 0, but the
resolver returns null, not the looked-up value. -/
theorem c4_counterexample :
    (getSortedObjectPaths c4Heap (JsVal.ref 0)).find?
      (fun value => identifierComparator ⟨"a", ParentCtx.nonBinary⟩ value) = some "a" ∧
    lodashGet c4Heap (JsVal.ref 0) "a" = some (JsVal.prim (JsPrim.num 0)) ∧
    getFirstReplacementValueForNode c4Heap (JsVal.ref 0) identifierComparator
      ⟨"a", ParentCtx.nonBinary⟩ = JsVal.prim JsPrim.null ∧
    JsVal.prim JsPrim.null ≠ JsVal.prim (JsPrim.num 0) := by decide

/-- C4 (amended): the resolver selects the first path in enumeration
order accepted by the comparator (ties broken by enumeration order) and
returns the dotted-path lookup of that path whenever the looked-up value
is truthy; a falsy looked-up value is reported as null instead. -/
theorem c4_first_match_truthy_lookup {α : Type} (h : JsHeap) (obj : JsVal)
    (cmp : NodePath α → String → Bool) (np : NodePath α) (p : String) (v : JsVal)
    (hfind : (getSortedObjectPaths h obj).find? (fun value => cmp np value) = some p)
    (hget : lodashGet h obj p = some v) (htruthy : truthy v = true) :
    getFirstReplacementValueForNode h obj cmp np = v := by
  simp only [getFirstReplacementValueForNode, head_filter_eq_find, hfind, hget,
    jsOrNull, htruthy]
  simp

/-- Witness for C4 at the configuration { a: "x" } and identifier a. -/
theorem c4_witness :
    getFirstReplacementValueForNode c4HeapW (JsVal.ref 0) identifierComparator
      ⟨"a", ParentCtx.nonBinary⟩ = JsVal.prim (JsPrim.str "x") :=
  c4_first_match_truthy_lookup c4HeapW (JsVal.ref 0) identifierComparator
    ⟨"a", ParentCtx.nonBinary⟩ "a" (JsVal.prim (JsPrim.str "x"))
    (by decide) (by decide) (by decide)

/-- C5: the UnaryExpression visitor is a no-op unless the operator is
exactly typeof; when it is, matching runs against the derived map whose
keys are exactly the configuration keys carrying the literal prefix
"typeof " with that prefix stripped (substring at index seven), each
mapped to its original configured value, recomputed from the full
configuration at this visit. -/
theorem c5_typeof_namespace (h : JsHeap) (fs : String → Sum String JsVal)
    (opts : ConfigOptions) (np : NodePath UnaryNode) :
    (np.node.operator ≠ "typeof" →
      UnaryExpressionVisit h fs opts np = .ok VisitResult.unchanged) ∧
    (∀ repl, np.node.operator = "typeof" → getReplacements fs opts = .ok repl →
      UnaryExpressionVisit h fs opts np =
        .ok (processNode (h ++ [buildTypeofValues (objEntries h repl)])
          (JsVal.ref h.length) np valueToNode unaryExpressionComparator)) ∧
    (∀ (entries : JsObj) (k' : String) (v : JsVal),
      ((k', v) ∈ buildTypeofValues entries ↔
        ∃ k, (k, v) ∈ entries ∧ jsSubstringUpTo k 7 = "typeof " ∧
          jsSubstringFrom k 7 = k')) ∧
    (∀ k k' : String, jsSubstringUpTo k 7 = "typeof " → jsSubstringFrom k 7 = k' →
      k = "typeof " ++ k') := by
  refine ⟨?_, ?_, ?_, ?_⟩
  · intro hop
    have hb : (np.node.operator != "typeof") = true := by
      simp [bne_iff_ne, hop]
    simp [UnaryExpressionVisit, hb]
  · intro repl hop hrepl
    have hb : (np.node.operator != "typeof") = false := by
      simp [hop]
    simp [UnaryExpressionVisit, hb, hrepl, Except.map]
  · intro entries k' v
    constructor
    · intro hmem
      rcases List.mem_filterMap.mp hmem with ⟨⟨k0, v0⟩, hkv, hf⟩
      by_cases hk : jsSubstringUpTo k0 7 = "typeof "
      · simp only [hk] at hf
        simp at hf
        refine ⟨k0, ?_, hk, hf.1⟩
        rw [← hf.2]
        exact hkv
      · simp [hk] at hf
    · rintro ⟨k, hk, h1, h2⟩
      apply List.mem_filterMap.mpr
      exact ⟨(k, v), hk, by simp [h1, h2]⟩
  · intro k k' h1 h2
    have hd1 : k.data.take 7 = "typeof ".data := by
      rw [← h1]; rfl
    have hd2 : k.data.drop 7 = k'.data := by
      rw [← h2]; rfl
    apply String.ext
    rw [String.data_append, ← hd1, ← hd2, List.take_append_drop]

/-- Witness for C5 at config { "typeof window": "undefined" } and a
typeof node. -/
theorem c5_witness :
    UnaryExpressionVisit c5Heap (fun _ => Sum.inl "err")
      (ConfigOptions.obj (JsVal.ref 0))
      ⟨⟨"typeof", some "window"⟩, ParentCtx.nonBinary⟩ =
      .ok (processNode (c5Heap ++ [buildTypeofValues (objEntries c5Heap (JsVal.ref 0))])
        (JsVal.ref c5Heap.length) ⟨⟨"typeof", some "window"⟩, ParentCtx.nonBinary⟩
        valueToNode unaryExpressionComparator) :=
  (c5_typeof_namespace c5Heap (fun _ => Sum.inl "err") (ConfigOptions.obj (JsVal.ref 0))
      ⟨⟨"typeof", some "window"⟩, ParentCtx.nonBinary⟩).2.1 (JsVal.ref 0) rfl rfl

/-- C8: a configuration path that does not resolve to a loadable module
makes the lookup throw an error carrying the underlying cause, aborting
the pass with no partial output as soon as a visit consults the
configuration; and whenever the configuration loads, every per-node visit
returns normally (per-node failures are silent no-ops). -/
theorem c8_configuration_error_is_only_error (h : JsHeap)
    (fs : String → Sum String JsVal) (s cause : String) :
    (fs s = Sum.inl cause →
      getReplacements fs (ConfigOptions.path s) = .error ⟨s, cause⟩) ∧
    (∀ ev rest, fs s = Sum.inl cause → consultsConfig ev →
      runPass h fs (ConfigOptions.path s) (ev :: rest) = .error ⟨s, cause⟩) ∧
    (∀ opts repl ev, getReplacements fs opts = .ok repl →
      ∃ res, visitEvent h fs opts ev = .ok res) := by
  have herr : fs s = Sum.inl cause →
      getReplacements fs (ConfigOptions.path s) = .error ⟨s, cause⟩ := by
    intro hc
    simp [getReplacements, hc]
  refine ⟨herr, ?_, ?_⟩
  · intro ev rest hc hcons
    have he := herr hc
    cases ev with
    | member np => simp [runPass, visitEvent, MemberExpressionVisit, he, Except.map]
    | ident np => simp [runPass, visitEvent, IdentifierVisit, he, Except.map]
    | unary np =>
      have hop : np.node.operator = "typeof" := hcons
      have hb : (np.node.operator != "typeof") = false := by simp [hop]
      simp [runPass, visitEvent, UnaryExpressionVisit, hb, he, Except.map]
  · intro opts repl ev hok
    cases ev with
    | member np =>
      exact ⟨processNode h repl np valueToNode memberExpressionComparator,
        by simp [visitEvent, MemberExpressionVisit, hok, Except.map]⟩
    | ident np =>
      exact ⟨processNode h repl np valueToNode identifierComparator,
        by simp [visitEvent, IdentifierVisit, hok, Except.map]⟩
    | unary np =>
      by_cases hop : np.node.operator = "typeof"
      · have hb : (np.node.operator != "typeof") = false := by simp [hop]
        exact ⟨processNode (h ++ [buildTypeofValues (objEntries h repl)])
            (JsVal.ref h.length) np valueToNode unaryExpressionComparator,
          by simp [visitEvent, UnaryExpressionVisit, hb, hok, Except.map]⟩
      · have hb : (np.node.operator != "typeof") = true := by simp [bne_iff_ne, hop]
        exact ⟨VisitResult.unchanged,
          by simp [visitEvent, UnaryExpressionVisit, hb]⟩

/-- Witness for C8: a failing load aborts a pass over one identifier
node. -/
theorem c8_witness :
    runPass [] (fun _ => Sum.inl "ENOENT") (ConfigOptions.path "./config.js")
      [VisitEvent.ident ⟨"a", ParentCtx.nonBinary⟩] =
      .error ⟨"./config.js", "ENOENT"⟩ :=
  (c8_configuration_error_is_only_error [] (fun _ => Sum.inl "ENOENT")
      "./config.js" "ENOENT").2.1
    (VisitEvent.ident ⟨"a", ParentCtx.nonBinary⟩) [] rfl trivial

/-- C10 counterexample: at the configuration { "typeof undefined": "x" }
the derived typeof namespace is { undefined: "x" }; a typeof node whose
argument is not a bare identifier matches no key (here the key
"undefined" is rejected), yet the visitor substitutes the node, because
the no-match resolver reads get(obj, undefined) - the derived map's
property literally named "undefined", which is the truthy "x". -/
theorem c10_counterexample :
    unaryExpressionComparator ⟨⟨"typeof", none⟩, ParentCtx.nonBinary⟩
      "undefined" = false ∧
    buildTypeofValues (objEntries c10HeapX (JsVal.ref 0)) =
      [("undefined", JsVal.prim (JsPrim.str "x"))] ∧
    UnaryExpressionVisit c10HeapX (fun _ => Sum.inl "err")
      (ConfigOptions.obj (JsVal.ref 0)) ⟨⟨"typeof", none⟩, ParentCtx.nonBinary⟩ =
      .ok (VisitResult.substituted (JsExpr.lit (JsPrim.str "x"))) :=
  ⟨rfl, rfl, rfl⟩

/-- C10 (amended): when a typeof expression's argument is not a bare
identifier its name field is absent and the comparator rejects every
configured key; the visitor then leaves the node unchanged exactly when
the derived typeof namespace holds no truthy property literally named
"undefined" (i.e. no configuration key "typeof undefined" with a truthy
value), because the no-match resolver still reads get(obj, undefined). -/
theorem c10_absent_argument_name_never_matches (h : JsHeap)
    (fs : String → Sum String JsVal) (opts : ConfigOptions)
    (np : NodePath UnaryNode) (hop : np.node.operator = "typeof")
    (harg : np.node.argumentName = none) :
    (∀ value, unaryExpressionComparator np value = false) ∧
    (∀ repl, getReplacements fs opts = .ok repl →
      truthy (jsOrNull (lookupKey (buildTypeofValues (objEntries h repl))
        "undefined")) = false →
      UnaryExpressionVisit h fs opts np = .ok VisitResult.unchanged) := by
  have hcmp : ∀ value, unaryExpressionComparator np value = false := by
    intro value
    simp [unaryExpressionComparator, harg]
  refine ⟨hcmp, ?_⟩
  intro repl hrepl hund
  have hb : (np.node.operator != "typeof") = false := by simp [hop]
  have hfilter : ∀ l : List String,
      l.filter (fun value => unaryExpressionComparator np value) = [] := by
    intro l
    apply List.filter_eq_nil_iff.mpr
    intro a _
    simp [hcmp]
  have hread : getKey (h ++ [buildTypeofValues (objEntries h repl)])
      (JsVal.ref h.length) "undefined" =
      lookupKey (buildTypeofValues (objEntries h repl)) "undefined" := by
    simp [getKey, objEntries, getElem?_append_singleton]
  have hfalsy : truthy (getFirstReplacementValueForNode
      (h ++ [buildTypeofValues (objEntries h repl)]) (JsVal.ref h.length)
      unaryExpressionComparator np) = false := by
    simp only [getFirstReplacementValueForNode, hfilter, List.head?_nil]
    rw [hread]
    exact hund
  simp [UnaryExpressionVisit, hb, hrepl, Except.map, processNode, hfalsy]

/-- Witness for C10 at a typeof node whose argument is not an
identifier and a configuration without a "typeof undefined" entry. -/
theorem c10_witness :
    unaryExpressionComparator ⟨⟨"typeof", none⟩, ParentCtx.nonBinary⟩ "window" = false ∧
    UnaryExpressionVisit [] (fun _ => Sum.inl "err")
      (ConfigOptions.obj (JsVal.prim JsPrim.null))
      ⟨⟨"typeof", none⟩, ParentCtx.nonBinary⟩ = .ok VisitResult.unchanged :=
  ⟨(c10_absent_argument_name_never_matches [] (fun _ => Sum.inl "err")
      (ConfigOptions.obj (JsVal.prim JsPrim.null))
      ⟨⟨"typeof", none⟩, ParentCtx.nonBinary⟩ rfl rfl).1 "window",
   (c10_absent_argument_name_never_matches [] (fun _ => Sum.inl "err")
      (ConfigOptions.obj (JsVal.prim JsPrim.null))
      ⟨⟨"typeof", none⟩, ParentCtx.nonBinary⟩ rfl rfl).2
     (JsVal.prim JsPrim.null) rfl (by decide)⟩

/-- The child loop of the state-threaded traversal returns its input
store whenever the supplied walker does. -/
theorem travFieldsST_heap_eq
    (go : List Nat → List String → JsVal → JsHeap → Option (List (List String)) × JsHeap)
    (hgo : ∀ anc pr v h, (go anc pr v h).2 = h) :
    ∀ anc pr es h, (travFieldsST go anc pr es h).2 = h := by
  intro anc pr es
  induction es with
  | nil => intro h; rfl
  | cons kv rest ih =>
    intro h
    simp only [travFieldsST]
    split
    · rename_i h1 heq
      have hh1 : (go anc (kv.1 :: pr) kv.2 h).2 = h := hgo _ _ _ _
      rw [heq] at hh1
      exact hh1
    · rename_i l1 h1 heq
      have hh1 : (go anc (kv.1 :: pr) kv.2 h).2 = h := hgo _ _ _ _
      rw [heq] at hh1
      have hh1' : h1 = h := hh1
      rw [hh1']
      split
      · rename_i h2 heq2
        have hh2 : (travFieldsST go anc pr rest h).2 = h := ih h
        rw [heq2] at hh2
        exact hh2
      · rename_i l2 h2 heq2
        have hh2 : (travFieldsST go anc pr rest h).2 = h := ih h
        rw [heq2] at hh2
        exact hh2

/-- The state-threaded traversal returns its input store unchanged. -/
theorem travGoST_heap_eq : ∀ fuel anc pr v h, (travGoST fuel anc pr v h).2 = h := by
  intro fuel
  induction fuel with
  | zero => intro anc pr v h; rfl
  | succ n ih =>
    intro anc pr v h
    cases v with
    | prim p => rfl
    | ref r =>
      simp only [travGoST]
      by_cases hm : r ∈ anc
      · simp [hm]
      · simp only [hm, if_false, readObjST]
        cases ho : h[r]? with
        | none => simp [ho]
        | some entries =>
          simp only [ho]
          have hf2 : (travFieldsST (travGoST n) (r :: anc) pr entries h).2 = h :=
            travFieldsST_heap_eq (travGoST n) (fun a b c d => ih a b c d) _ _ _ _
          rcases hf : travFieldsST (travGoST n) (r :: anc) pr entries h with ⟨o, h2⟩
          rw [hf] at hf2
          exact hf2

/-- State-threaded object view returns its input store. -/
theorem objEntriesST_heap_eq (v : JsVal) (h : JsHeap) : (objEntriesST v h).2 = h := by
  cases v <;> rfl

/-- State-threaded property read returns its input store. -/
theorem getKeyST_heap_eq (v : JsVal) (k : String) (h : JsHeap) :
    (getKeyST v k h).2 = h := by
  cases v <;> rfl

/-- State-threaded path walk returns its input store. -/
theorem walkValST_heap_eq : ∀ (p : List String) (v : JsVal) (h : JsHeap),
    (walkValST v p h).2 = h := by
  intro p
  induction p with
  | nil => intro v h; rfl
  | cons k rest ih =>
    intro v h
    simp only [walkValST]
    have hk : (getKeyST v k h).2 = h := getKeyST_heap_eq v k h
    rcases hg : getKeyST v k h with ⟨o, h1⟩
    rw [hg] at hk
    have hk' : h1 = h := hk
    rw [hk']
    cases o with
    | some v' => exact ih v' h
    | none => rfl

/-- State-threaded lodash.get returns its input store. -/
theorem lodashGetST_heap_eq (obj : JsVal) (s : String) (h : JsHeap) :
    (lodashGetST obj s h).2 = h := by
  simp only [lodashGetST]
  have hk : (getKeyST obj s h).2 = h := getKeyST_heap_eq obj s h
  rcases hg : getKeyST obj s h with ⟨o, h1⟩
  rw [hg] at hk
  have hk' : h1 = h := hk
  rw [hk']
  cases o with
  | some v => rfl
  | none =>
    cases hd : hasDot s with
    | true => simp [hd, walkValST_heap_eq]
    | false => simp [hd]

/-- State-threaded path enumeration returns its input store. -/
theorem getSortedObjectPathsST_heap_eq (h : JsHeap) (obj : JsVal) :
    (getSortedObjectPathsST h obj).2 = h := by
  simp only [getSortedObjectPathsST]
  cases ht : truthy obj with
  | false => simp
  | true =>
    simp only [if_true]
    have h1 : (travGoST (h.length + 1) [] [] obj h).2 = h := travGoST_heap_eq _ _ _ _ _
    rcases htr : travGoST (h.length + 1) [] [] obj h with ⟨o, h2⟩
    rw [htr] at h1
    exact h1

/-- C9: path enumeration and replacement resolution leave the
configuration store exactly as it was before the call: the state-threaded
forms of getSortedObjectPaths and getFirstReplacementValueForNode, in
which every property read threads the store, return the input store
unchanged. -/
theorem c9_enumeration_resolution_no_mutation {α : Type} (h : JsHeap) (obj : JsVal)
    (cmp : NodePath α → String → Bool) (np : NodePath α) :
    (getSortedObjectPathsST h obj).2 = h ∧
    (getFirstReplacementValueForNodeST h obj cmp np).2 = h := by
  refine ⟨getSortedObjectPathsST_heap_eq h obj, ?_⟩
  simp only [getFirstReplacementValueForNodeST]
  rw [getSortedObjectPathsST_heap_eq h obj]
  cases hhead : ((getSortedObjectPathsST h obj).1.filter
      (fun value => cmp np value)).head? with
  | some k => simpa using lodashGetST_heap_eq obj k h
  | none => simpa using getKeyST_heap_eq obj "undefined" h

/-! Ground facts about the traversal: clause equations, inversion of the
child loop, and step lemmas for walks and reference chains. -/

/-- Exhausted fuel. -/
theorem travGo_zero (h : JsHeap) (anc : List Nat) (pr : List String) (v : JsVal) :
    travGo h 0 anc pr v = none := rfl

/-- A primitive is a leaf: only its own path. -/
theorem travGo_prim (h : JsHeap) (n : Nat) (anc : List Nat) (pr : List String)
    (p : JsPrim) : travGo h (n + 1) anc pr (.prim p) = some [pr.reverse] := rfl

/-- A circular reference is not entered. -/
theorem travGo_ref_mem (h : JsHeap) (n : Nat) (anc : List Nat) (pr : List String)
    (r : Nat) (hm : r ∈ anc) :
    travGo h (n + 1) anc pr (.ref r) = some [pr.reverse] := by
  simp [travGo, hm]

/-- A dangling reference is a leaf. -/
theorem travGo_ref_dangling (h : JsHeap) (n : Nat) (anc : List Nat)
    (pr : List String) (r : Nat) (hm : r ∉ anc) (ho : h[r]? = none) :
    travGo h (n + 1) anc pr (.ref r) = some [pr.reverse] := by
  simp [travGo, hm, ho]

/-- An object emits its own path and then its children, pre-order. -/
theorem travGo_ref_entries (h : JsHeap) (n : Nat) (anc : List Nat)
    (pr : List String) (r : Nat) (es : JsObj) (hm : r ∉ anc) (ho : h[r]? = some es) :
    travGo h (n + 1) anc pr (.ref r) =
      (travFields (travGo h n) (r :: anc) pr es).map (fun l => pr.reverse :: l) := by
  simp [travGo, hm, ho]

/-- Inversion of one step of the child loop. -/
theorem travFields_cons_eq_some
    (go : List Nat → List String → JsVal → Option (List (List String)))
    (anc : List Nat) (pr : List String) (kv : String × JsVal) (rest : JsObj)
    (l : List (List String)) :
    travFields go anc pr (kv :: rest) = some l ↔
      ∃ l1 l2, go anc (kv.1 :: pr) kv.2 = some l1 ∧
        travFields go anc pr rest = some l2 ∧ l = l1 ++ l2 := by
  constructor
  · intro hl
    simp only [travFields] at hl
    split at hl
    · exact Option.noConfusion hl
    · rename_i l1 hg
      split at hl
      · exact Option.noConfusion hl
      · rename_i l2 hr
        exact ⟨l1, l2, hg, hr, (Option.some_inj.mp hl).symm⟩
  · rintro ⟨l1, l2, hg, hr, rfl⟩
    simp only [travFields, hg, hr]

/-- Appending one key to a successful walk is a property read at its
end. -/
theorem walkVal_snoc (h : JsHeap) :
    ∀ (P : List String) (v w : JsVal) (k : String),
      walkVal h v P = some w → walkVal h v (P ++ [k]) = getKey h w k := by
  intro P
  induction P with
  | nil =>
    intro v w k hw
    simp only [walkVal] at hw
    rw [Option.some_inj] at hw
    subst hw
    cases hk : getKey h v k with
    | some v' => simp [walkVal, hk]
    | none => simp [walkVal, hk]
  | cons k0 P' ih =>
    intro v w k hw
    simp only [walkVal] at hw
    cases hk0 : getKey h v k0 with
    | none => rw [hk0] at hw; exact Option.noConfusion hw
    | some v0 =>
      rw [hk0] at hw
      have := ih v0 w k hw
      simp only [List.cons_append, walkVal, hk0]
      exact this

/-- Appending one key that enters reference r' extends the reference
chain by r'. -/
theorem refChain_snoc (h : JsHeap) :
    ∀ (P : List String) (v : JsVal) (c : List Nat) (r' : Nat) (k : String) (v' : JsVal),
      refChain h v P = some c → walkVal h v P = some (.ref r') →
      getKey h (.ref r') k = some v' →
      refChain h v (P ++ [k]) = some (c ++ [r']) := by
  intro P
  induction P with
  | nil =>
    intro v c r' k v' hc hw hk
    simp only [refChain] at hc
    simp only [walkVal] at hw
    rw [Option.some_inj] at hc hw
    subst hc
    subst hw
    simp [refChain, hk]
  | cons k0 P' ih =>
    intro v c r' k v' hc hw hk
    cases v with
    | prim p => simp [refChain] at hc
    | ref r0 =>
      simp only [refChain] at hc
      cases hk0 : getKey h (.ref r0) k0 with
      | none => rw [hk0] at hc; exact Option.noConfusion hc
      | some v0 =>
        rw [hk0] at hc
        rcases Option.map_eq_some'.mp hc with ⟨c0, hc0, rfl⟩
        simp only [walkVal, hk0] at hw
        have hih := ih v0 c0 r' k v' hc0 hw hk
        rw [List.cons_append]
        simp only [refChain, hk0]
        rw [hih]
        simp

/-- In an object with pairwise distinct keys, lookup of an entry's key is
that entry. -/
theorem lookupKey_of_nodup :
    ∀ (es : JsObj) (kv : String × JsVal), (es.map Prod.fst).Nodup → kv ∈ es →
      lookupKey es kv.1 = some kv.2 := by
  intro es
  induction es with
  | nil =>
    intro kv _ hm
    simp at hm
  | cons e rest ih =>
    intro kv hnd hm
    simp only [List.map_cons, List.nodup_cons] at hnd
    rcases List.mem_cons.mp hm with heq | hm'
    · subst heq
      simp only [lookupKey]
      rw [List.find?_cons_of_pos _ (by simp)]
      rfl
    · have hmem : kv.1 ∈ rest.map Prod.fst := List.mem_map.mpr ⟨kv, hm', rfl⟩
      have hne' : e.1 ≠ kv.1 := fun heq => hnd.1 (heq ▸ hmem)
      have hrec := ih kv hnd.2 hm'
      simp only [lookupKey] at hrec ⊢
      rw [List.find?_cons_of_neg _ (by simp [hne'])]
      exact hrec

/-- A successfully indexed object is one of the stored objects. -/
theorem entries_mem_heap (h : JsHeap) (r : Nat) (es : JsObj)
    (ho : h[r]? = some es) : es ∈ h := by
  rcases List.getElem?_eq_some_iff.mp ho with ⟨hr, hes⟩
  exact hes ▸ List.getElem_mem hr

/-- A successfully indexed reference is in range. -/
theorem lt_of_getElem?_some (h : JsHeap) (r : Nat) (es : JsObj)
    (ho : h[r]? = some es) : r < h.length := by
  rcases List.getElem?_eq_some_iff.mp ho with ⟨hr, _⟩
  exact hr

/-- A duplicate-free list of references below n has at most n elements. -/
theorem nodup_lt_length_le (anc : List Nat) (n : Nat) (nd : anc.Nodup)
    (hlt : ∀ a ∈ anc, a < n) : anc.length ≤ n := by
  have hsub : anc ⊆ List.range n := fun a ha => List.mem_range.mpr (hlt a ha)
  have := (List.subperm_of_subset nd hsub).length_le
  simpa using this

/-! Totality: heap size plus one is always enough fuel. -/

/-- The child loop is total when the walker is. -/
theorem travFields_total (h : JsHeap)
    (go : List Nat → List String → JsVal → Option (List (List String)))
    (fuel : Nat)
    (hgo : ∀ anc pr v, AncOK h fuel anc → (go anc pr v).isSome) :
    ∀ anc pr es, AncOK h fuel anc → (travFields go anc pr es).isSome := by
  intro anc pr es hOK
  induction es with
  | nil => simp [travFields]
  | cons kv rest ih =>
    have h1 := hgo anc (kv.1 :: pr) kv.2 hOK
    rcases Option.isSome_iff_exists.mp h1 with ⟨l1, hl1⟩
    rcases Option.isSome_iff_exists.mp ih with ⟨l2, hl2⟩
    simp [travFields, hl1, hl2]

/-- The traversal is total under the ancestor invariant. -/
theorem travGo_total (h : JsHeap) :
    ∀ fuel anc pr v, AncOK h fuel anc → (travGo h fuel anc pr v).isSome := by
  intro fuel
  induction fuel with
  | zero =>
    intro anc pr v hOK
    exfalso
    rcases hOK with ⟨nd, hb, hlen⟩
    have := nodup_lt_length_le anc h.length nd hb
    omega
  | succ n ih =>
    intro anc pr v hOK
    cases v with
    | prim p => simp [travGo_prim]
    | ref r =>
      by_cases hm : r ∈ anc
      · simp [travGo_ref_mem h n anc pr r hm]
      · cases ho : h[r]? with
        | none => simp [travGo_ref_dangling h n anc pr r hm ho]
        | some es =>
          rw [travGo_ref_entries h n anc pr r es hm ho]
          have hOK' : AncOK h n (r :: anc) := by
            rcases hOK with ⟨nd, hb, hlen⟩
            refine ⟨List.nodup_cons.mpr ⟨hm, nd⟩, ?_, ?_⟩
            · intro a ha
              rcases List.mem_cons.mp ha with rfl | ha'
              · exact lt_of_getElem?_some h a es ho
              · exact hb a ha'
            · simp only [List.length_cons]
              omega
          have hf := travFields_total h (travGo h n) n
            (fun anc' pr' v' hOK'' => ih anc' pr' v' hOK'') (r :: anc) pr es hOK'
          rcases Option.isSome_iff_exists.mp hf with ⟨lf, hlf⟩
          simp [hlf]

/-- The path enumeration always succeeds: the traversal of any store,
cyclic or not, terminates without exhausting its fuel. -/
theorem traversePathsOpt_isSome (h : JsHeap) (obj : JsVal) :
    (traversePathsOpt h obj).isSome := by
  apply travGo_total
  exact ⟨List.nodup_nil, by simp, by simp⟩

/-! Shape: every emitted path extends the path at which the walk
started. -/

/-- Children extend the current path by their own key. -/
theorem travFields_extends
    (go : List Nat → List String → JsVal → Option (List (List String)))
    (hgo : ∀ anc pr v l, go anc pr v = some l → ∀ q ∈ l, pr.reverse <+: q) :
    ∀ anc pr es l, travFields go anc pr es = some l →
      ∀ q ∈ l, ∃ kv, kv ∈ es ∧ (pr.reverse ++ [kv.1]) <+: q := by
  intro anc pr es
  induction es with
  | nil =>
    intro l hl q hq
    simp only [travFields, Option.some_inj] at hl
    subst hl
    simp at hq
  | cons kv rest ih =>
    intro l hl q hq
    rcases (travFields_cons_eq_some go anc pr kv rest l).mp hl with ⟨l1, l2, hg, hr, rfl⟩
    rcases List.mem_append.mp hq with hq1 | hq2
    · have := hgo anc (kv.1 :: pr) kv.2 l1 hg q hq1
      refine ⟨kv, List.mem_cons_self .., ?_⟩
      simpa [List.reverse_cons] using this
    · rcases ih l2 hr q hq2 with ⟨kv', hkv', hpre⟩
      exact ⟨kv', List.mem_cons_of_mem _ hkv', hpre⟩

/-- Every emitted path extends the current path. -/
theorem travGo_extends (h : JsHeap) :
    ∀ fuel anc pr v l, travGo h fuel anc pr v = some l → ∀ q ∈ l, pr.reverse <+: q := by
  intro fuel
  induction fuel with
  | zero =>
    intro anc pr v l hl
    rw [travGo_zero] at hl
    exact Option.noConfusion hl
  | succ n ih =>
    intro anc pr v l hl q hq
    cases v with
    | prim p =>
      rw [travGo_prim, Option.some_inj] at hl
      subst hl
      simp at hq
      subst hq
      exact List.prefix_rfl
    | ref r =>
      by_cases hm : r ∈ anc
      · rw [travGo_ref_mem h n anc pr r hm, Option.some_inj] at hl
        subst hl
        simp at hq
        subst hq
        exact List.prefix_rfl
      · cases ho : h[r]? with
        | none =>
          rw [travGo_ref_dangling h n anc pr r hm ho, Option.some_inj] at hl
          subst hl
          simp at hq
          subst hq
          exact List.prefix_rfl
        | some es =>
          rw [travGo_ref_entries h n anc pr r es hm ho] at hl
          rcases Option.map_eq_some'.mp hl with ⟨lf, hlf, rfl⟩
          rcases List.mem_cons.mp hq with rfl | hq'
          · exact List.prefix_rfl
          · rcases travFields_extends (travGo h n) (fun a b c d hd => ih a b c d hd)
              (r :: anc) pr es lf hlf q hq' with ⟨kv, _, hpre⟩
            exact List.IsPrefix.trans (List.prefix_append _ _) hpre

/-! Soundness: every emitted path is walkable from the root and its
reference chain never repeats a reference. -/

/-- Child-loop part of soundness. -/
theorem travFields_sound (h : JsHeap) (obj : JsVal)
    (go : List Nat → List String → JsVal → Option (List (List String)))
    (hgo : ∀ anc pr v l, go anc pr v = some l → anc.Nodup →
      walkVal h obj pr.reverse = some v →
      refChain h obj pr.reverse = some anc.reverse →
      ∀ q ∈ l, (walkVal h obj q).isSome ∧
        ∃ c, refChain h obj q = some c ∧ c.Nodup) :
    ∀ r anc0 pr es l, travFields go (r :: anc0) pr es = some l →
      (r :: anc0).Nodup → walkVal h obj pr.reverse = some (.ref r) →
      refChain h obj pr.reverse = some anc0.reverse →
      (∀ kv ∈ es, getKey h (.ref r) kv.1 = some kv.2) →
      ∀ q ∈ l, (walkVal h obj q).isSome ∧
        ∃ c, refChain h obj q = some c ∧ c.Nodup := by
  intro r anc0 pr es
  induction es with
  | nil =>
    intro l hl hnd hw hc hes q hq
    simp only [travFields, Option.some_inj] at hl
    subst hl
    simp at hq
  | cons kv rest ih =>
    intro l hl hnd hw hc hes q hq
    rcases (travFields_cons_eq_some go (r :: anc0) pr kv rest l).mp hl with
      ⟨l1, l2, hg, hr, rfl⟩
    rcases List.mem_append.mp hq with hq1 | hq2
    · have hkv := hes kv (List.mem_cons_self ..)
      have hw' : walkVal h obj (kv.1 :: pr).reverse = some kv.2 := by
        rw [List.reverse_cons, walkVal_snoc h pr.reverse obj (.ref r) kv.1 hw]
        exact hkv
      have hc' : refChain h obj (kv.1 :: pr).reverse = some (r :: anc0).reverse := by
        rw [List.reverse_cons, List.reverse_cons]
        exact refChain_snoc h pr.reverse obj anc0.reverse r kv.1 kv.2 hc hw hkv
      exact hgo (r :: anc0) (kv.1 :: pr) kv.2 l1 hg hnd hw' hc' q hq1
    · exact ih l2 hr hnd hw hc
        (fun kv' hkv' => hes kv' (List.mem_cons_of_mem _ hkv')) q hq2

/-- Soundness of the traversal. -/
theorem travGo_sound (h : JsHeap) (obj : JsVal) (hKN : KeysNodupHeap h) :
    ∀ fuel anc pr v l, travGo h fuel anc pr v = some l → anc.Nodup →
      walkVal h obj pr.reverse = some v →
      refChain h obj pr.reverse = some anc.reverse →
      ∀ q ∈ l, (walkVal h obj q).isSome ∧
        ∃ c, refChain h obj q = some c ∧ c.Nodup := by
  intro fuel
  induction fuel with
  | zero =>
    intro anc pr v l hl hnd hw hc q hq
    rw [travGo_zero] at hl
    exact Option.noConfusion hl
  | succ n ih =>
    intro anc pr v l hl hnd hw hc q hq
    have hbase : (walkVal h obj pr.reverse).isSome ∧
        ∃ c, refChain h obj pr.reverse = some c ∧ c.Nodup :=
      ⟨by simp [hw], anc.reverse, hc, by simpa using hnd⟩
    cases v with
    | prim p =>
      rw [travGo_prim, Option.some_inj] at hl
      subst hl
      simp at hq
      subst hq
      exact hbase
    | ref r =>
      by_cases hm : r ∈ anc
      · rw [travGo_ref_mem h n anc pr r hm, Option.some_inj] at hl
        subst hl
        simp at hq
        subst hq
        exact hbase
      · cases ho : h[r]? with
        | none =>
          rw [travGo_ref_dangling h n anc pr r hm ho, Option.some_inj] at hl
          subst hl
          simp at hq
          subst hq
          exact hbase
        | some es =>
          rw [travGo_ref_entries h n anc pr r es hm ho] at hl
          rcases Option.map_eq_some'.mp hl with ⟨lf, hlf, rfl⟩
          rcases List.mem_cons.mp hq with rfl | hq'
          · exact hbase
          · have hes : ∀ kv ∈ es, getKey h (.ref r) kv.1 = some kv.2 := by
              intro kv hkv
              have hnd_es := hKN es (entries_mem_heap h r es ho)
              have := lookupKey_of_nodup es kv hnd_es hkv
              simpa [getKey, objEntries, ho] using this
            exact travFields_sound h obj (travGo h n)
              (fun a b c d hd => ih a b c d hd) r anc pr es lf hlf
              (List.nodup_cons.mpr ⟨hm, hnd⟩) hw hc hes q hq'

/-- C6: for every configuration store containing a self-reference (a
value reachable from itself, directly or transitively), the path
enumeration terminates without error (the traversal returns a result
rather than exhausting its fuel), and its output omits the cyclic
continuation: the reference chain of every enumerated path visits each
reference at most once, so no path revisits a structure through the same
reference. -/
theorem c6_cyclic_config_terminates (h : JsHeap) (obj : JsVal)
    (hKN : KeysNodupHeap h) (_hself : hasSelfRef h = true) :
    (∃ l, traversePathsOpt h obj = some l) ∧
    (∀ q ∈ (traversePathsOpt h obj).getD [], ∀ c,
      refChain h obj q = some c → c.Nodup) := by
  refine ⟨Option.isSome_iff_exists.mp (traversePathsOpt_isSome h obj), ?_⟩
  intro q hq c hcq
  rcases Option.isSome_iff_exists.mp (traversePathsOpt_isSome h obj) with ⟨l, hl⟩
  rw [hl] at hq
  simp only [Option.getD_some] at hq
  have hs := travGo_sound h obj hKN (h.length + 1) [] [] obj l hl
    List.nodup_nil (by cases obj <;> rfl) (by cases obj <;> rfl) q hq
  rcases hs.2 with ⟨c', hc', hnd⟩
  rw [hcq] at hc'
  rw [Option.some_inj] at hc'
  rw [hc']
  exact hnd

/-- Witness for C6 at the self-referential configuration a.self = a. -/
theorem c6_witness :
    hasSelfRef c6Heap = true ∧
    (∃ l, traversePathsOpt c6Heap (JsVal.ref 0) = some l) ∧
    (∀ q ∈ (traversePathsOpt c6Heap (JsVal.ref 0)).getD [],
      ∀ c, refChain c6Heap (JsVal.ref 0) q = some c → c.Nodup) :=
  ⟨by decide,
   (c6_cyclic_config_terminates c6Heap (JsVal.ref 0) (by decide) (by decide)).1,
   (c6_cyclic_config_terminates c6Heap (JsVal.ref 0) (by decide) (by decide)).2⟩

/-! Completeness on acyclic stores: every walkable path is emitted. -/

/-- Two prefixes of one list with equal lengths are equal. -/
theorem prefix_eq_of_length_eq {α : Type} {l1 l2 q : List α}
    (h1 : l1 <+: q) (h2 : l2 <+: q) (hlen : l1.length = l2.length) : l1 = l2 := by
  rcases h1 with ⟨t1, rfl⟩
  rcases h2 with ⟨t2, ht⟩
  exact (List.append_inj ht hlen.symm).1.symm

/-- Child-loop part of completeness. -/
theorem travFields_complete (h : JsHeap) (hFW : ForwardHeap h)
    (go : List Nat → List String → JsVal → Option (List (List String)))
    (hgo : ∀ anc pr v l, go anc pr v = some l →
      (∀ a ∈ anc, ∀ rr, v = JsVal.ref rr → a < rr) →
      ∀ p, (walkVal h v p).isSome → (pr.reverse ++ p) ∈ l) :
    ∀ r anc pr es l, travFields go anc pr es = some l →
      (∀ a ∈ anc, a ≤ r) → r < h.length → (∀ kv ∈ es, kv ∈ (h[r]?).getD []) →
      ∀ k v' p', lookupKey es k = some v' → (walkVal h v' p').isSome →
        (pr.reverse ++ k :: p') ∈ l := by
  intro r anc pr es
  induction es with
  | nil =>
    intro l hl hanc hr hes k v' p' hlk hw
    simp [lookupKey] at hlk
  | cons kv rest ih =>
    intro l hl hanc hr hes k v' p' hlk hw
    rcases (travFields_cons_eq_some go anc pr kv rest l).mp hl with ⟨l1, l2, hg, hrr, rfl⟩
    by_cases hk : kv.1 = k
    · have hv' : v' = kv.2 := by
        simp only [lookupKey] at hlk
        rw [List.find?_cons_of_pos _ (by simp [hk])] at hlk
        simpa using hlk.symm
      subst hv'
      subst hk
      have hanc' : ∀ a ∈ anc, ∀ rr, kv.2 = JsVal.ref rr → a < rr := by
        intro a ha rr hvr
        have hfw := hFW r (List.mem_range.mpr hr) kv (hes kv (List.mem_cons_self ..))
        rw [hvr] at hfw
        simp only [forwardEntry, decide_eq_true_eq] at hfw
        exact lt_of_le_of_lt (hanc a ha) hfw
      have hchild := hgo anc (kv.1 :: pr) kv.2 l1 hg hanc' p' hw
      have hmem : pr.reverse ++ kv.1 :: p' ∈ l1 := by
        simpa [List.reverse_cons, List.append_assoc] using hchild
      exact List.mem_append.mpr (Or.inl hmem)
    · have hlk' : lookupKey rest k = some v' := by
        simp only [lookupKey] at hlk ⊢
        rw [List.find?_cons_of_neg _ (by simp [hk])] at hlk
        exact hlk
      exact List.mem_append.mpr (Or.inr (ih l2 hrr hanc hr
        (fun kv' hkv' => hes kv' (List.mem_cons_of_mem _ hkv')) k v' p' hlk' hw))

/-- Completeness of the traversal on forward (acyclic) stores. -/
theorem travGo_complete (h : JsHeap) (hFW : ForwardHeap h) :
    ∀ fuel anc pr v l, travGo h fuel anc pr v = some l →
      (∀ a ∈ anc, ∀ rr, v = JsVal.ref rr → a < rr) →
      ∀ p, (walkVal h v p).isSome → (pr.reverse ++ p) ∈ l := by
  intro fuel
  induction fuel with
  | zero =>
    intro anc pr v l hl
    rw [travGo_zero] at hl
    exact Option.noConfusion hl
  | succ n ih =>
    intro anc pr v l hl hanc p hw
    cases v with
    | prim pp =>
      rw [travGo_prim, Option.some_inj] at hl
      subst hl
      cases p with
      | nil => simp
      | cons k p' =>
        exfalso
        simp [walkVal, getKey, objEntries, lookupKey, List.find?] at hw
    | ref r =>
      by_cases hm : r ∈ anc
      · exact absurd (hanc r hm r rfl) (lt_irrefl r)
      · cases ho : h[r]? with
        | none =>
          rw [travGo_ref_dangling h n anc pr r hm ho, Option.some_inj] at hl
          subst hl
          cases p with
          | nil => simp
          | cons k p' =>
            exfalso
            simp [walkVal, getKey, objEntries, ho, lookupKey, List.find?] at hw
        | some es =>
          rw [travGo_ref_entries h n anc pr r es hm ho] at hl
          rcases Option.map_eq_some'.mp hl with ⟨lf, hlf, rfl⟩
          cases p with
          | nil => simp
          | cons k p' =>
            have hstep : ∃ v'', lookupKey es k = some v'' ∧ (walkVal h v'' p').isSome := by
              simp only [walkVal, getKey, objEntries, ho, Option.getD_some] at hw
              cases hlk : lookupKey es k with
              | none => rw [hlk] at hw; simp at hw
              | some v'' => rw [hlk] at hw; exact ⟨v'', rfl, hw⟩
            rcases hstep with ⟨v'', hlk, hw'⟩
            have hle : ∀ a ∈ r :: anc, a ≤ r := by
              intro a ha
              rcases List.mem_cons.mp ha with rfl | ha'
              · exact le_refl a
              · exact le_of_lt (hanc a ha' r rfl)
            have hmem := travFields_complete h hFW (travGo h n)
              (fun a b c d hd => ih a b c d hd) r (r :: anc) pr es lf hlf
              hle (lt_of_getElem?_some h r es ho)
              (fun kv hkv => by simpa [ho] using hkv) k v'' p' hlk hw'
            exact List.mem_cons_of_mem _ hmem

/-! No duplicates: pre-order emits each key path once. -/

/-- Child-loop part: sibling subtrees are disjoint because their paths
differ at the child key, and keys are distinct. -/
theorem travFields_nodup
    (go : List Nat → List String → JsVal → Option (List (List String)))
    (hgoPre : ∀ anc pr v l, go anc pr v = some l → ∀ q ∈ l, pr.reverse <+: q)
    (hgoNd : ∀ anc pr v l, go anc pr v = some l → l.Nodup) :
    ∀ anc pr es l, travFields go anc pr es = some l →
      (es.map Prod.fst).Nodup → l.Nodup := by
  intro anc pr es
  induction es with
  | nil =>
    intro l hl _
    simp only [travFields, Option.some_inj] at hl
    subst hl
    exact List.nodup_nil
  | cons kv rest ih =>
    intro l hl hnd
    simp only [List.map_cons, List.nodup_cons] at hnd
    rcases (travFields_cons_eq_some go anc pr kv rest l).mp hl with ⟨l1, l2, hg, hr, rfl⟩
    rw [List.nodup_append]
    refine ⟨hgoNd anc (kv.1 :: pr) kv.2 l1 hg, ih l2 hr hnd.2, ?_⟩
    intro q hq1 hq2
    have hA : (pr.reverse ++ [kv.1]) <+: q := by
      have := hgoPre anc (kv.1 :: pr) kv.2 l1 hg q hq1
      simpa [List.reverse_cons] using this
    rcases travFields_extends go hgoPre anc pr rest l2 hr q hq2 with ⟨kv', hkv', hB⟩
    have heq := prefix_eq_of_length_eq hA hB (by simp)
    have hkk : kv.1 = kv'.1 := by
      have h2 := List.append_inj_right heq rfl
      simpa using h2
    apply hnd.1
    rw [hkk]
    exact List.mem_map.mpr ⟨kv', hkv', rfl⟩

/-- The traversal emits pairwise distinct key paths. -/
theorem travGo_nodup (h : JsHeap) (hKN : KeysNodupHeap h) :
    ∀ fuel anc pr v l, travGo h fuel anc pr v = some l → l.Nodup := by
  intro fuel
  induction fuel with
  | zero =>
    intro anc pr v l hl
    rw [travGo_zero] at hl
    exact Option.noConfusion hl
  | succ n ih =>
    intro anc pr v l hl
    cases v with
    | prim pp =>
      rw [travGo_prim, Option.some_inj] at hl
      subst hl
      simp
    | ref r =>
      by_cases hm : r ∈ anc
      · rw [travGo_ref_mem h n anc pr r hm, Option.some_inj] at hl
        subst hl
        simp
      · cases ho : h[r]? with
        | none =>
          rw [travGo_ref_dangling h n anc pr r hm ho, Option.some_inj] at hl
          subst hl
          simp
        | some es =>
          rw [travGo_ref_entries h n anc pr r es hm ho] at hl
          rcases Option.map_eq_some'.mp hl with ⟨lf, hlf, rfl⟩
          rw [List.nodup_cons]
          constructor
          · intro hmem
            rcases travFields_extends (travGo h n)
              (fun a b c d hd => travGo_extends h n a b c d hd)
              (r :: anc) pr es lf hlf pr.reverse hmem with ⟨kv, _, hpre⟩
            have := hpre.length_le
            simp at this
          · exact travFields_nodup (travGo h n)
              (fun a b c d hd => travGo_extends h n a b c d hd)
              (fun a b c d hd => ih a b c d hd)
              (r :: anc) pr es lf hlf (hKN es (entries_mem_heap h r es ho))

/-! Order: a path is emitted before every proper extension of it. -/

/-- Child-loop part of the ordering sweep. -/
theorem travFields_order
    (go : List Nat → List String → JsVal → Option (List (List String)))
    (hgoPre : ∀ anc pr v l, go anc pr v = some l → ∀ q ∈ l, pr.reverse <+: q)
    (hgoOrd : ∀ anc pr v l, go anc pr v = some l → ∀ p q, p ∈ l → q ∈ l →
      p <+: q → p ≠ q → [p, q].Sublist l) :
    ∀ anc pr es l, travFields go anc pr es = some l → (es.map Prod.fst).Nodup →
      ∀ p q, p ∈ l → q ∈ l → p <+: q → p ≠ q → [p, q].Sublist l := by
  intro anc pr es
  induction es with
  | nil =>
    intro l hl _ p q hp
    simp only [travFields, Option.some_inj] at hl
    subst hl
    simp at hp
  | cons kv rest ih =>
    intro l hl hnd p q hp hq hpre hne
    simp only [List.map_cons, List.nodup_cons] at hnd
    rcases (travFields_cons_eq_some go anc pr kv rest l).mp hl with ⟨l1, l2, hg, hr, rfl⟩
    rcases List.mem_append.mp hp with hp1 | hp2
    · rcases List.mem_append.mp hq with hq1 | hq2
      · exact (hgoOrd anc (kv.1 :: pr) kv.2 l1 hg p q hp1 hq1 hpre hne).trans
          (List.sublist_append_left l1 l2)
      · exfalso
        have hApre : (pr.reverse ++ [kv.1]) <+: p := by
          have := hgoPre anc (kv.1 :: pr) kv.2 l1 hg p hp1
          simpa [List.reverse_cons] using this
        rcases travFields_extends go hgoPre anc pr rest l2 hr q hq2 with ⟨kv', hkv', hBpre⟩
        have hAq : (pr.reverse ++ [kv.1]) <+: q := hApre.trans hpre
        have heq := prefix_eq_of_length_eq hAq hBpre (by simp)
        have hkk : kv.1 = kv'.1 := by
          have h2 := List.append_inj_right heq rfl
          simpa using h2
        apply hnd.1
        rw [hkk]
        exact List.mem_map.mpr ⟨kv', hkv', rfl⟩
    · rcases List.mem_append.mp hq with hq1 | hq2
      · exfalso
        rcases travFields_extends go hgoPre anc pr rest l2 hr p hp2 with ⟨kv', hkv', hBpre⟩
        have hAq : (pr.reverse ++ [kv.1]) <+: q := by
          have := hgoPre anc (kv.1 :: pr) kv.2 l1 hg q hq1
          simpa [List.reverse_cons] using this
        have hBq : (pr.reverse ++ [kv'.1]) <+: q := hBpre.trans hpre
        have heq := prefix_eq_of_length_eq hAq hBq (by simp)
        have hkk : kv.1 = kv'.1 := by
          have h2 := List.append_inj_right heq rfl
          simpa using h2
        apply hnd.1
        rw [hkk]
        exact List.mem_map.mpr ⟨kv', hkv', rfl⟩
      · exact (ih l2 hr hnd.2 p q hp2 hq2 hpre hne).trans
          (List.sublist_append_right l1 l2)

/-- In the emitted sequence, a path comes before each of its proper
extensions: descendants are emitted inside the subtree their ancestor
heads. -/
theorem travGo_order (h : JsHeap) (hKN : KeysNodupHeap h) :
    ∀ fuel anc pr v l, travGo h fuel anc pr v = some l →
      ∀ p q, p ∈ l → q ∈ l → p <+: q → p ≠ q → [p, q].Sublist l := by
  intro fuel
  induction fuel with
  | zero =>
    intro anc pr v l hl
    rw [travGo_zero] at hl
    exact Option.noConfusion hl
  | succ n ih =>
    intro anc pr v l hl p q hp hq hpre hne
    have hsingle : ∀ (x : List String), p ∈ ([x] : List (List String)) →
        q ∈ ([x] : List (List String)) → False := by
      intro x hp' hq'
      simp at hp' hq'
      exact hne (hp'.trans hq'.symm)
    cases v with
    | prim pp =>
      rw [travGo_prim, Option.some_inj] at hl
      subst hl
      exact (hsingle pr.reverse hp hq).elim
    | ref r =>
      by_cases hm : r ∈ anc
      · rw [travGo_ref_mem h n anc pr r hm, Option.some_inj] at hl
        subst hl
        exact (hsingle pr.reverse hp hq).elim
      · cases ho : h[r]? with
        | none =>
          rw [travGo_ref_dangling h n anc pr r hm ho, Option.some_inj] at hl
          subst hl
          exact (hsingle pr.reverse hp hq).elim
        | some es =>
          rw [travGo_ref_entries h n anc pr r es hm ho] at hl
          rcases Option.map_eq_some'.mp hl with ⟨lf, hlf, rfl⟩
          have hndes := hKN es (entries_mem_heap h r es ho)
          rcases List.mem_cons.mp hp with rfl | hp'
          · have hq' : q ∈ lf := by
              rcases List.mem_cons.mp hq with heq | hq'
              · exact absurd heq.symm hne
              · exact hq'
            exact List.Sublist.cons₂ _ (List.singleton_sublist.mpr hq')
          · rcases travFields_extends (travGo h n)
              (fun a b c d hd => travGo_extends h n a b c d hd)
              (r :: anc) pr es lf hlf p hp' with ⟨kv, hkv, hppre⟩
            have hq' : q ∈ lf := by
              rcases List.mem_cons.mp hq with heq | hq'
              · exfalso
                have hlen1 : (pr.reverse ++ [kv.1]).length ≤ p.length := hppre.length_le
                have hlen2 : p.length ≤ q.length := hpre.length_le
                rw [heq] at hlen2
                simp at hlen1 hlen2
                omega
              · exact hq'
            have hsub := travFields_order (travGo h n)
              (fun a b c d hd => travGo_extends h n a b c d hd)
              (fun a b c d hd => ih a b c d hd)
              (r :: anc) pr es lf hlf hndes p q hp' hq' hpre hne
            exact List.Sublist.cons _ hsub

/-! Key shape: every component of an emitted path beyond the starting
point is a key of some stored object. -/

/-- Child-loop part of the key-shape sweep. -/
theorem travFields_keys
    (go : List Nat → List String → JsVal → Option (List (List String)))
    (P : String → Prop)
    (hgoPre : ∀ anc pr v l, go anc pr v = some l → ∀ q ∈ l, pr.reverse <+: q)
    (hgo : ∀ anc pr v l, go anc pr v = some l →
      ∀ q ∈ l, ∀ s ∈ q.drop pr.length, P s) :
    ∀ anc pr es l, travFields go anc pr es = some l → (∀ kv ∈ es, P kv.1) →
      ∀ q ∈ l, ∀ s ∈ q.drop pr.length, P s := by
  intro anc pr es
  induction es with
  | nil =>
    intro l hl _ q hq
    simp only [travFields, Option.some_inj] at hl
    subst hl
    simp at hq
  | cons kv rest ih =>
    intro l hl hkeys q hq s hs
    rcases (travFields_cons_eq_some go anc pr kv rest l).mp hl with ⟨l1, l2, hg, hr, rfl⟩
    rcases List.mem_append.mp hq with hq1 | hq2
    · have hA : (pr.reverse ++ [kv.1]) <+: q := by
        have := hgoPre anc (kv.1 :: pr) kv.2 l1 hg q hq1
        simpa [List.reverse_cons] using this
      rcases hA with ⟨t, rfl⟩
      have hdrop : ((pr.reverse ++ [kv.1]) ++ t).drop pr.length = kv.1 :: t := by
        rw [List.append_assoc]
        rw [List.drop_left' (by simp)]
        simp
      rw [hdrop] at hs
      rcases List.mem_cons.mp hs with rfl | hs'
      · exact hkeys kv (List.mem_cons_self ..)
      · have hchild := hgo anc (kv.1 :: pr) kv.2 l1 hg _ hq1 s
        have hdrop2 : ((pr.reverse ++ [kv.1]) ++ t).drop (kv.1 :: pr).length = t := by
          rw [List.drop_left' (by simp)]
        rw [hdrop2] at hchild
        exact hchild hs'
    · exact ih l2 hr (fun kv' hkv' => hkeys kv' (List.mem_cons_of_mem _ hkv')) q hq2 s hs

/-- All components of emitted paths are keys of stored objects (stated
for any property all stored keys share). -/
theorem travGo_keys (h : JsHeap) (P : String → Prop)
    (hP : ∀ es ∈ h, ∀ kv ∈ es, P kv.1) :
    ∀ fuel anc pr v l, travGo h fuel anc pr v = some l →
      ∀ q ∈ l, ∀ s ∈ q.drop pr.length, P s := by
  intro fuel
  induction fuel with
  | zero =>
    intro anc pr v l hl
    rw [travGo_zero] at hl
    exact Option.noConfusion hl
  | succ n ih =>
    intro anc pr v l hl q hq s hs
    have hself : ∀ (s' : String), s' ∈ pr.reverse.drop pr.length → P s' := by
      intro s' hs'
      rw [List.drop_eq_nil_of_le (by simp)] at hs'
      simp at hs'
    cases v with
    | prim pp =>
      rw [travGo_prim, Option.some_inj] at hl
      subst hl
      simp at hq
      subst hq
      exact hself s hs
    | ref r =>
      by_cases hm : r ∈ anc
      · rw [travGo_ref_mem h n anc pr r hm, Option.some_inj] at hl
        subst hl
        simp at hq
        subst hq
        exact hself s hs
      · cases ho : h[r]? with
        | none =>
          rw [travGo_ref_dangling h n anc pr r hm ho, Option.some_inj] at hl
          subst hl
          simp at hq
          subst hq
          exact hself s hs
        | some es =>
          rw [travGo_ref_entries h n anc pr r es hm ho] at hl
          rcases Option.map_eq_some'.mp hl with ⟨lf, hlf, rfl⟩
          rcases List.mem_cons.mp hq with rfl | hq'
          · exact hself s hs
          · exact travFields_keys (travGo h n) P
              (fun a b c d hd => travGo_extends h n a b c d hd)
              (fun a b c d hd => ih a b c d hd)
              (r :: anc) pr es lf hlf
              (hP es (entries_mem_heap h r es ho)) q hq' s hs

/-! The engine sort: a permutation in general, and exactly a reversal
when the one-argument comparator is positive on every element. -/

/-- Splitting a list at the end of its takeWhile run. -/
theorem take_drop_split {α : Type} (l : List α) (p : α → Bool) :
    l.takeWhile p ++ l.drop (l.takeWhile p).length = l := by
  obtain ⟨t, ht⟩ := List.takeWhile_prefix (l := l) p
  have hd : l.drop (l.takeWhile p).length = t := by
    nth_rewrite 2 [← ht]
    exact List.drop_left _ _
  rw [hd, ht]

/-- Inserting in the middle permutes. -/
theorem middle_insert_perm {α : Type} (rev kept shifted : List α) (x : α)
    (hsplit : shifted ++ kept = rev) :
    (kept.reverse ++ x :: shifted.reverse).Perm (x :: rev.reverse) := by
  have hrev : kept.reverse ++ shifted.reverse = rev.reverse := by
    rw [← List.reverse_append, hsplit]
  have hmid : (kept.reverse ++ x :: shifted.reverse).Perm
      (x :: (kept.reverse ++ shifted.reverse)) := List.perm_middle
  rw [hrev] at hmid
  exact hmid

/-- One insertion step permutes. -/
theorem v8Insert_perm (cmp : String → String → Int) (sorted : List String)
    (x : String) : (v8Insert cmp sorted x).Perm (x :: sorted) := by
  have h1 := middle_insert_perm sorted.reverse
    (sorted.reverse.drop (sorted.reverse.takeWhile (fun t => 0 < cmp t x)).length)
    (sorted.reverse.takeWhile (fun t => 0 < cmp t x)) x
    (take_drop_split sorted.reverse (fun t => 0 < cmp t x))
  simpa [v8Insert] using h1

/-- The insertion sort permutes its input (for any comparator). -/
theorem v8sort_perm_aux (cmp : String → String → Int) :
    ∀ (l acc : List String), (l.foldl (v8Insert cmp) acc).Perm (l ++ acc) := by
  intro l
  induction l with
  | nil => intro acc; simp
  | cons x xs ih =>
    intro acc
    have h1 := ih (v8Insert cmp acc x)
    have h2 : (xs ++ v8Insert cmp acc x).Perm (xs ++ (x :: acc)) :=
      List.Perm.append_left xs (v8Insert_perm cmp acc x)
    have h3 : (xs ++ (x :: acc)).Perm (x :: (xs ++ acc)) := List.perm_middle
    have h4 := (h1.trans h2).trans h3
    simpa using h4

/-- The sort is a permutation of its input. -/
theorem v8sort_perm (cmp : String → String → Int) (l : List String) :
    (v8InsertionSort cmp l).Perm l := by
  have := v8sort_perm_aux cmp l []
  simpa [v8InsertionSort] using this

/-- With the length comparator and a non-empty-string prefix, one
insertion step puts the new element in front: the always-positive
comparator shifts the whole prefix. -/
theorem v8Insert_front (acc : List String) (x : String)
    (hne : ∀ s ∈ acc, s.length ≠ 0) :
    v8Insert jsSortComparator acc x = x :: acc := by
  simp only [v8Insert, jsSortComparator]
  have htw : acc.reverse.takeWhile (fun t => 0 < ((t.length : Int))) = acc.reverse := by
    rw [List.takeWhile_eq_self_iff]
    intro t ht
    have := hne t (List.mem_reverse.mp ht)
    simp
    omega
  rw [htw, List.drop_length]
  simp

/-- On non-empty strings the sort is exactly the reversal of its
input. -/
theorem v8sort_eq_reverse_aux :
    ∀ (l acc : List String), (∀ s ∈ l, s.length ≠ 0) → (∀ s ∈ acc, s.length ≠ 0) →
      l.foldl (v8Insert jsSortComparator) acc = l.reverse ++ acc := by
  intro l
  induction l with
  | nil => intro acc _ _; simp
  | cons x xs ih =>
    intro acc hl hacc
    have hx : x.length ≠ 0 := hl x (List.mem_cons_self ..)
    have hfold := ih (x :: acc) (fun s hs => hl s (List.mem_cons_of_mem _ hs))
      (fun s hs => by
        rcases List.mem_cons.mp hs with rfl | hs'
        · exact hx
        · exact hacc s hs')
    simp only [List.foldl_cons, v8Insert_front acc x hacc]
    rw [hfold]
    simp

/-- Reversal form of the sort on non-empty strings. -/
theorem v8sort_eq_reverse (l : List String) (hl : ∀ s ∈ l, s.length ≠ 0) :
    v8InsertionSort jsSortComparator l = l.reverse := by
  have := v8sort_eq_reverse_aux l [] hl (by simp)
  simpa [v8InsertionSort] using this

/-! Dotted joins: shape, length and injectivity on dot-free non-empty
keys. -/

/-- Shifting a common prefix out of the join fold. -/
theorem dotJoin_foldl_shift :
    ∀ (xs : List String) (a b : String),
      xs.foldl (fun acc s => acc ++ "." ++ s) (a ++ b) =
        a ++ xs.foldl (fun acc s => acc ++ "." ++ s) b := by
  intro xs
  induction xs with
  | nil => intro a b; rfl
  | cons s xs ih =>
    intro a b
    simp only [List.foldl_cons]
    have h1 : a ++ b ++ "." ++ s = a ++ (b ++ "." ++ s) := by
      rw [String.append_assoc a b ".", String.append_assoc a (b ++ ".") s]
    rw [h1, ih]

/-- Join of a singleton. -/
theorem dotJoin_single (x : String) : dotJoin [x] = x := rfl

/-- Join of at least two components separates head and tail with a
dot. -/
theorem dotJoin_cons_cons (x s : String) (xs : List String) :
    dotJoin (x :: s :: xs) = x ++ "." ++ dotJoin (s :: xs) := by
  simp only [dotJoin, List.foldl_cons]
  exact dotJoin_foldl_shift xs (x ++ ".") s

/-- Character content of a dotted join step. -/
theorem dotJoin_cons_data (x A : String) :
    (x ++ "." ++ A).data = x.data ++ '.' :: A.data := by
  have hdot : ("." : String).data = ['.'] := rfl
  simp [String.data_append, hdot]

/-- A join of non-empty components over a non-empty component list is
non-empty. -/
theorem dotJoin_length_pos :
    ∀ (p : List String), p ≠ [] → (∀ s ∈ p, s.length ≠ 0) →
      (dotJoin p).length ≠ 0 := by
  intro p
  cases p with
  | nil => intro hcon; exact absurd rfl hcon
  | cons x xs =>
    intro _ hne
    cases xs with
    | nil => simpa [dotJoin_single] using hne x (List.mem_cons_self ..)
    | cons s xs' =>
      rw [dotJoin_cons_cons]
      have hx := hne x (List.mem_cons_self ..)
      have hll : (x ++ "." ++ dotJoin (s :: xs')).length =
          x.length + 1 + (dotJoin (s :: xs')).length := by
        have hdl : ("." : String).length = 1 := rfl
        simp [String.length_append, hdl]
      omega

/-- Cancelling a dot-free head on both sides of a separated
concatenation. -/
theorem sep_split_inj :
    ∀ (xd yd u w : List Char), ('.' : Char) ∉ xd → ('.' : Char) ∉ yd →
      xd ++ '.' :: u = yd ++ '.' :: w → xd = yd ∧ u = w := by
  intro xd
  induction xd with
  | nil =>
    intro yd u w _ hy heq
    cases yd with
    | nil => simpa using heq
    | cons y yd' =>
      exfalso
      simp only [List.nil_append, List.cons_append, List.cons.injEq] at heq
      exact hy (by rw [← heq.1]; exact List.mem_cons_self ..)
  | cons c xd' ih =>
    intro yd u w hx hy heq
    cases yd with
    | nil =>
      exfalso
      simp only [List.nil_append, List.cons_append, List.cons.injEq] at heq
      exact hx (by rw [heq.1]; exact List.mem_cons_self ..)
    | cons y yd' =>
      simp only [List.cons_append, List.cons.injEq] at heq
      obtain ⟨hcy, heq'⟩ := heq
      have hih := ih yd' u w (fun hm => hx (List.mem_cons_of_mem _ hm))
        (fun hm => hy (List.mem_cons_of_mem _ hm)) heq'
      exact ⟨by rw [hcy, hih.1], hih.2⟩

/-- The dotted join is injective on key paths whose components are
non-empty and dot-free. -/
theorem dotJoin_inj :
    ∀ (a b : List String),
      (∀ s ∈ a, s.length ≠ 0 ∧ ('.' : Char) ∉ s.data) →
      (∀ s ∈ b, s.length ≠ 0 ∧ ('.' : Char) ∉ s.data) →
      dotJoin a = dotJoin b → a = b := by
  intro a
  induction a with
  | nil =>
    intro b _ hb heq
    cases b with
    | nil => rfl
    | cons y ys =>
      exfalso
      have hpos := dotJoin_length_pos (y :: ys) (by simp) (fun s hs => (hb s hs).1)
      rw [← heq] at hpos
      exact hpos rfl
  | cons x xs ih =>
    intro b ha hb heq
    cases b with
    | nil =>
      exfalso
      have hpos := dotJoin_length_pos (x :: xs) (by simp) (fun s hs => (ha s hs).1)
      rw [heq] at hpos
      exact hpos rfl
    | cons y ys =>
      cases xs with
      | nil =>
        cases ys with
        | nil =>
          rw [dotJoin_single, dotJoin_single] at heq
          rw [heq]
        | cons s' ys' =>
          exfalso
          rw [dotJoin_single, dotJoin_cons_cons] at heq
          have hx := (ha x (List.mem_cons_self ..)).2
          apply hx
          rw [show x.data = (y ++ "." ++ dotJoin (s' :: ys')).data from by rw [← heq]]
          rw [dotJoin_cons_data]
          simp
      | cons s xs' =>
        cases ys with
        | nil =>
          exfalso
          rw [dotJoin_cons_cons, dotJoin_single] at heq
          have hy := (hb y (List.mem_cons_self ..)).2
          apply hy
          rw [show y.data = (x ++ "." ++ dotJoin (s :: xs')).data from by rw [heq]]
          rw [dotJoin_cons_data]
          simp
        | cons s' ys' =>
          rw [dotJoin_cons_cons, dotJoin_cons_cons] at heq
          have hdata : x.data ++ '.' :: (dotJoin (s :: xs')).data =
              y.data ++ '.' :: (dotJoin (s' :: ys')).data := by
            rw [← dotJoin_cons_data, ← dotJoin_cons_data, heq]
          have hsplit := sep_split_inj x.data y.data _ _
            (ha x (List.mem_cons_self ..)).2 (hb y (List.mem_cons_self ..)).2 hdata
          have hxy : x = y := String.ext hsplit.1
          have hJ : dotJoin (s :: xs') = dotJoin (s' :: ys') := String.ext hsplit.2
          have htail := ih (s' :: ys') (fun t ht => ha t (List.mem_cons_of_mem _ ht))
            (fun t ht => hb t (List.mem_cons_of_mem _ ht)) hJ
          rw [hxy, htail]

/-- C7 counterexample: the non-cyclic well-formed configuration
{ "a.b": 1, a: { b: 2 } } yields the string "a.b" twice, so the output of
getSortedObjectPaths is not duplicate-free even though the store is
acyclic with distinct keys. -/
theorem c7_counterexample :
    ForwardHeap c7Heap ∧ KeysNodupHeap c7Heap ∧
    getSortedObjectPaths c7Heap (JsVal.ref 0) = ["a.b", "a", "a.b"] ∧
    ¬ (getSortedObjectPaths c7Heap (JsVal.ref 0)).Nodup := by decide

/-- C7 (amended): on every acyclic well-formed store, getSortedObjectPaths
contains exactly the dot-joined paths of the reachable non-root locations
(both intermediate sub-maps and leaf values), with the empty root path
excluded; when additionally no key contains a dot, distinct locations
yield distinct strings and the output is duplicate-free (the
counterexample shows the dot-free proviso is necessary). -/
theorem c7_one_path_per_location (h : JsHeap) (obj : JsVal)
    (hKN : KeysNodupHeap h) (hFW : ForwardHeap h)
    (hNE : KeysNonemptyHeap h) (hDF : KeysDotFreeHeap h) :
    (∀ s, s ∈ getSortedObjectPaths h obj ↔
      ∃ p, p ≠ [] ∧ (walkVal h obj p).isSome ∧ dotJoin p = s) ∧
    (getSortedObjectPaths h obj).Nodup := by
  cases ht : truthy obj with
  | false =>
    have hobjprim : ∃ pp, obj = JsVal.prim pp := by
      cases obj with
      | prim pp => exact ⟨pp, rfl⟩
      | ref r => simp [truthy] at ht
    rcases hobjprim with ⟨pp, rfl⟩
    constructor
    · intro s
      constructor
      · intro hs
        simp [getSortedObjectPaths, ht] at hs
      · rintro ⟨p, hne, hw, rfl⟩
        exfalso
        cases p with
        | nil => exact hne rfl
        | cons k p' =>
          simp [walkVal, getKey, objEntries, lookupKey, List.find?] at hw
    · simp [getSortedObjectPaths, ht]
  | true =>
    rcases Option.isSome_iff_exists.mp (traversePathsOpt_isSome h obj) with ⟨l, hl⟩
    have hgsop : getSortedObjectPaths h obj =
        v8InsertionSort jsSortComparator
          ((l.filter (fun arr => arr.length != 0)).map dotJoin) := by
      simp [getSortedObjectPaths, ht, hl]
    have hperm := v8sort_perm jsSortComparator
      ((l.filter (fun arr => arr.length != 0)).map dotJoin)
    have hgood : ∀ q ∈ l, ∀ s ∈ q, s.length ≠ 0 ∧ ('.' : Char) ∉ s.data := by
      intro q hq s hs
      have hk := travGo_keys h (fun s0 => s0.length ≠ 0 ∧ ('.' : Char) ∉ s0.data)
        (fun es hes kv hkv => ⟨hNE es hes kv hkv, hDF es hes kv hkv⟩)
        (h.length + 1) [] [] obj l hl q hq
      exact hk s (by simpa using hs)
    constructor
    · intro s
      rw [hgsop, hperm.mem_iff]
      constructor
      · intro hs
        rcases List.mem_map.mp hs with ⟨p, hpf, rfl⟩
        have hpl := List.mem_filter.mp hpf
        have hpne : p ≠ [] := by
          intro hcon
          subst hcon
          simp at hpl
        have hsound := travGo_sound h obj hKN (h.length + 1) [] [] obj l hl
          List.nodup_nil (by cases obj <;> rfl) (by cases obj <;> rfl) p hpl.1
        exact ⟨p, hpne, hsound.1, rfl⟩
      · rintro ⟨p, hpne, hw, rfl⟩
        have hanc : ∀ a ∈ ([] : List Nat), ∀ rr, obj = JsVal.ref rr → a < rr := by
          simp
        have hcomp := travGo_complete h hFW (h.length + 1) [] [] obj l hl hanc p hw
        simp only [List.reverse_nil, List.nil_append] at hcomp
        apply List.mem_map.mpr
        refine ⟨p, List.mem_filter.mpr ⟨hcomp, ?_⟩, rfl⟩
        simp only [bne_iff_ne, ne_eq]
        exact fun hcon => hpne (List.length_eq_zero.mp hcon)
    · rw [hgsop, hperm.nodup_iff]
      apply List.Nodup.map_on
      · intro p1 hp1 p2 hp2 hjoin
        have h1 := List.mem_filter.mp hp1
        have h2 := List.mem_filter.mp hp2
        exact dotJoin_inj p1 p2 (fun s hs => hgood p1 h1.1 s hs)
          (fun s hs => hgood p2 h2.1 s hs) hjoin
      · exact List.Nodup.sublist (List.filter_sublist _)
          (travGo_nodup h hKN (h.length + 1) [] [] obj l hl)

/-- Witness for C7 at the configuration { a: { b: 2 } }. -/
theorem c7_witness :
    (∀ s, s ∈ getSortedObjectPaths c7HeapW (JsVal.ref 0) ↔
      ∃ p, p ≠ [] ∧ (walkVal c7HeapW (JsVal.ref 0) p).isSome ∧ dotJoin p = s) ∧
    (getSortedObjectPaths c7HeapW (JsVal.ref 0)).Nodup :=
  c7_one_path_per_location c7HeapW (JsVal.ref 0)
    (by decide) (by decide) (by decide) (by decide)

/-- C1 counterexample: at the non-cyclic configuration
{ "a.b": 1, a: { b: 2 } } - where two enumerated paths share the string
form "a.b" and so could match the same node - the enumerated sequence is
["a.b", "a", "a.b"], which is not ordered descending by path-string
length. -/
theorem c1_counterexample :
    getSortedObjectPaths c1Heap (JsVal.ref 0) = ["a.b", "a", "a.b"] ∧
    ¬ (getSortedObjectPaths c1Heap (JsVal.ref 0)).Pairwise
        (fun a b => b.length ≤ a.length) := by decide

/-- C1 (amended): within the engine's insertion-sort regime (at most ten
enumerated non-root paths - longer arrays are quicksorted, where an
ancestor's string can precede a descendant's), the source's one-argument
comparator makes the sort reverse the pre-order enumeration, so the
output is not globally ordered descending by path-string length; what
does hold is that every path is preceded by each of its proper
extensions: for a descendant path q of an ancestor path p, the string of
q occurs before the string of p in getSortedObjectPaths, so the deeper
(more specific) replacement is still tried first whenever an ancestor and
a descendant both exist in the configuration. -/
theorem c1_descendant_precedes_ancestor (h : JsHeap) (obj : JsVal)
    (hKN : KeysNodupHeap h) (hNE : KeysNonemptyHeap h)
    (hten : ((((traversePathsOpt h obj).getD []).filter
      (fun arr => arr.length != 0)).map dotJoin).length ≤ 10)
    (p q : List String)
    (hp : p ∈ (traversePathsOpt h obj).getD [])
    (hq : q ∈ (traversePathsOpt h obj).getD [])
    (hpre : p <+: q) (hne : p ≠ q) (hpnil : p ≠ []) :
    [dotJoin q, dotJoin p].Sublist (getSortedObjectPaths h obj) := by
  rcases Option.isSome_iff_exists.mp (traversePathsOpt_isSome h obj) with ⟨l, hl⟩
  rw [hl] at hp hq
  simp only [Option.getD_some] at hp hq
  have ht : truthy obj = true := by
    cases obj with
    | ref r => rfl
    | prim pp =>
      exfalso
      have heq : traversePathsOpt h (JsVal.prim pp) = some [[]] := by
        have := travGo_prim h h.length [] [] pp
        simpa [traversePathsOpt] using this
      rw [heq] at hl
      have hleq : l = [[]] := (Option.some_inj.mp hl).symm
      subst hleq
      simp at hp
      exact hpnil hp
  have hqnil : q ≠ [] := by
    intro hcon
    subst hcon
    exact hpnil (List.prefix_nil.mp hpre)
  have hsub := travGo_order h hKN (h.length + 1) [] [] obj l hl p q hp hq hpre hne
  have hp0 : (p.length != 0) = true := by
    simp only [bne_iff_ne, ne_eq]
    exact fun hcon => hpnil (List.length_eq_zero.mp hcon)
  have hq0 : (q.length != 0) = true := by
    simp only [bne_iff_ne, ne_eq]
    exact fun hcon => hqnil (List.length_eq_zero.mp hcon)
  have hfil : [p, q].filter (fun arr => arr.length != 0) = [p, q] := by
    simp [List.filter_cons, hp0, hq0]
  have hsubf : [p, q].Sublist (l.filter (fun arr => arr.length != 0)) := by
    have := hsub.filter (fun arr => arr.length != 0)
    rwa [hfil] at this
  have hsubm : [dotJoin p, dotJoin q].Sublist
      ((l.filter (fun arr => arr.length != 0)).map dotJoin) := by
    simpa using hsubf.map dotJoin
  have hgoodlen : ∀ s ∈ (l.filter (fun arr => arr.length != 0)).map dotJoin,
      s.length ≠ 0 := by
    intro s hs
    rcases List.mem_map.mp hs with ⟨pp', hpf, rfl⟩
    have hmem := (List.mem_filter.mp hpf).1
    have hplen := (List.mem_filter.mp hpf).2
    have hpne : pp' ≠ [] := by
      intro hcon
      subst hcon
      simp at hplen
    apply dotJoin_length_pos pp' hpne
    intro s' hs'
    have hk := travGo_keys h (fun s0 => s0.length ≠ 0)
      (fun es hes kv hkv => hNE es hes kv hkv)
      (h.length + 1) [] [] obj l hl pp' hmem
    exact hk s' (by simpa using hs')
  have hrev : getSortedObjectPaths h obj =
      ((l.filter (fun arr => arr.length != 0)).map dotJoin).reverse := by
    rw [show getSortedObjectPaths h obj = v8InsertionSort jsSortComparator
        ((l.filter (fun arr => arr.length != 0)).map dotJoin) from by
      simp [getSortedObjectPaths, ht, hl]]
    exact v8sort_eq_reverse _ hgoodlen
  rw [hrev]
  have hfin := hsubm.reverse
  simpa using hfin

/-- Witness for C1 at the configuration { a: { b: 2 } }: "a.b" comes
before "a". -/
theorem c1_witness :
    [dotJoin ["a", "b"], dotJoin ["a"]].Sublist
      (getSortedObjectPaths c1HeapW (JsVal.ref 0)) :=
  c1_descendant_precedes_ancestor c1HeapW (JsVal.ref 0) (by decide) (by decide)
    (by decide) ["a"] ["a", "b"] (by decide) (by decide) ⟨["b"], rfl⟩
    (by decide) (by decide)
